import Mathlib

/-!
# Square size estimation (`app/estimate_square_size.go`)

A shallow embedding of the block-layout size estimator and a verification of
its specification.

Conventions of the embedding.

* Go `int` values that are lengths or share counts are natural numbers.  They
  are sums of lengths of slices held in memory and never leave the range of a
  64 bit integer, so no wrap-around is modelled for them.
* `uint64` and `uint32` arithmetic on the square size (`squareSize *
  squareSize`, the conversion `uint32(..)`, `maxShareIndex - 1`) is modelled
  with explicit reductions modulo `2 ^ 64` and `2 ^ 32`.
* A Go panic is the result `none`.
* A byte slice only ever contributes its length to the estimator; the
  encoders are therefore modelled by the length of their output.
* The `float64` computation of `minSize` is modelled bit for bit: every
  operation (the conversion of the share count, the product with `1.625`, the
  sum with `3`, the square root) rounds its exact result to the nearest
  number with 53 significant bits, ties to even.  A `float64` value is
  represented by a natural number counting a fixed unit: whole numbers for
  the converted share count, eighths for the padded total, and `2 ^ -52` for
  the square root.  The exponent range of `float64` plays no part, since the
  values stay between `2` and `2 ^ 70`.  The Go compiler may fuse the product
  and the sum into one operation with a single rounding; the flag `fma` of
  `minSize` selects that behaviour and every result holds for both settings.
-/

namespace Celestia

/-! ## Data model -/

/-- Blob descriptor carried by a blob transaction (`tmproto.Blob`): namespace
id, payload bytes and share version. -/
structure Blob where
  NamespaceId : List UInt8
  Data : List UInt8
  ShareVersion : Nat
  deriving DecidableEq, Repr

/-- Blob transaction (`tmproto.BlobTx`): the wrapped transaction bytes and the
blobs that it pays for. -/
structure BlobTx where
  Tx : List UInt8
  Blobs : List Blob
  TypeId : String
  deriving DecidableEq, Repr

/-- Parsed transaction as used by `estimateSquareSize`: `normalTx` holds the
raw bytes of a plain transaction and is empty for a blob transaction, whose
content is then found in `blobTx`. -/
structure parsedTx where
  normalTx : List UInt8
  blobTx : BlobTx
  deriving DecidableEq, Repr

/-- Constants of package `appconsts` that the estimator reads.  Their
declarations are not part of the sources at hand, so they are parameters of
every definition below. -/
structure AppConsts where
  DefaultMinSquareSize : Nat
  DefaultMaxSquareSize : Nat
  FirstCompactShareContentSize : Nat
  ContinuationCompactShareContentSize : Nat
  deriving DecidableEq, Repr

/-! ## External contracts -/

/-- Loop of `binary.PutUvarint`: one byte per started group of seven bits.
The first argument bounds the number of iterations. -/
def putUvarintLoop : Nat → Nat → Nat
  | 0, _ => 1
  | fuel + 1, x => if 128 ≤ x then putUvarintLoop fuel (x / 128) + 1 else 1

/-- Number of bytes of the unsigned varint encoding of `x`. -/
def uvarintLen (x : Nat) : Nat := putUvarintLoop x x

/-- Constant `binary.MaxVarintLen32`. -/
def MaxVarintLen32 : Nat := 5

/-- Go's `binary.PutUvarint (buf, x)` for a buffer of `bufLen` bytes: the
number of bytes written, or a panic when the buffer is too small. -/
def PutUvarint (bufLen x : Nat) : Option Nat :=
  if uvarintLen x ≤ bufLen then some (uvarintLen x) else none

/-- Modelled from the spec: `shares.DelimLen` (`delimiterLength`), missing from
the sources: the number of bytes a canonical variable-length unsigned-integer
encoding of `n` occupies. -/
def DelimLen (n : Nat) : Nat := uvarintLen n

/-- Modelled from the spec: `shares.CompactSharesNeeded`, missing from the
sources: the minimum number of fixed-capacity shares, the first one holding
`FirstCompactShareContentSize` bytes and every further one
`ContinuationCompactShareContentSize` bytes, that hold `sequenceLen` bytes,
rounded up. -/
def CompactSharesNeeded (c : AppConsts) (sequenceLen : Nat) : Nat :=
  if sequenceLen = 0 then 0
  else if sequenceLen ≤ c.FirstCompactShareContentSize then 1
  else 1 + (sequenceLen - c.FirstCompactShareContentSize
              + c.ContinuationCompactShareContentSize - 1)
            / c.ContinuationCompactShareContentSize

/-- Doubling loop of `RoundUpPowerOfTwo`; the first argument bounds the number
of iterations. -/
def roundUpLoop (input : Nat) : Nat → Nat → Nat
  | 0, result => result
  | fuel + 1, result =>
    if result < input then roundUpLoop input fuel (result * 2) else result

/-- Modelled from the spec: `shares.RoundUpPowerOfTwo`, missing from the
sources: the smallest power of two that is at least `input`, which is `1` for
`input ≤ 1`. -/
def RoundUpPowerOfTwo (input : Nat) : Nat := roundUpLoop input input 1

/-- Modelled from the spec: length of the output of the envelope encoder
`wrapWithIndices` (`coretypes.MarshalIndexWrapper`, an external library missing
from the sources) for a payload of `txLen` bytes and the given share indexes.
The specification asks for a deterministic length that is monotonic in the
payload length and in the number and magnitude of the indexes; the model is
the size of the protobuf message `IndexWrapper` that the encoder marshals:
field 1 holds the payload (tag, varint length, bytes; omitted when empty),
field 2 the packed share indexes (tag, varint length of the packed varints,
the varints; omitted when there is none) and field 3 the four byte type id
`INDX` (tag, length, bytes). -/
def IndexWrapperSize (txLen : Nat) (shareIndexes : List Nat) : Nat :=
  (if txLen = 0 then 0 else 1 + uvarintLen txLen + txLen)
  + (if shareIndexes.isEmpty then 0
     else 1 + uvarintLen (shareIndexes.map uvarintLen).sum
            + (shareIndexes.map uvarintLen).sum)
  + 6

/-- Length of the result of `coretypes.MarshalIndexWrapper`; the encoder
reports no error on any payload and index list. -/
def MarshalIndexWrapperLen (txLen : Nat) (shareIndexes : List Nat) : Option Nat :=
  some (IndexWrapperSize txLen shareIndexes)

/-- Modelled from the spec: number of shares that hold a blob of `dataLen`
bytes once share-aligned, for sparse shares whose first share holds
`firstSparse` bytes and every further one `contSparse` bytes. -/
def SparseSharesNeeded (firstSparse contSparse dataLen : Nat) : Nat :=
  if dataLen = 0 then 0
  else if dataLen ≤ firstSparse then 1
  else 1 + (dataLen - firstSparse + contSparse - 1) / contSparse

/-- Modelled from the spec: `blobtypes.BlobTxSharesUsed`, missing from the
sources: the number of shares the payloads of a blob transaction occupy, the
sum over its blobs of the shares of each. -/
def BlobTxSharesUsed (firstSparse contSparse : Nat) (btx : BlobTx) : Nat :=
  (btx.Blobs.map (fun b => SparseSharesNeeded firstSparse contSparse b.Data.length)).sum

/-! ## The estimator -/

/-- Constant `worstCasePaddingCoefficient = 1.625`, as a number of eighths. -/
def worstCasePaddingCoefficient : Nat := 13

/-- Constant `worstCasePaddingBase = 3`. -/
def worstCasePaddingBase : Nat := 3

/-- Loop that counts the binary digits of a number; the first argument bounds
the number of iterations. -/
def bitLenLoop : Nat → Nat → Nat
  | 0, _ => 0
  | fuel + 1, n => if n = 0 then 0 else bitLenLoop fuel (n / 2) + 1

/-- Number of binary digits of `n`. -/
def bitLen (n : Nat) : Nat := bitLenLoop n n

/-- Rounding of `float64`: the multiple of the unit `n` counts that is nearest
to `n` among the numbers with at most 53 significant bits, ties going to the
even significand. -/
def roundToFloat64 (n : Nat) : Nat :=
  let e := bitLen n - 53
  let q := n / 2 ^ e
  let r := n % 2 ^ e
  if 2 * r < 2 ^ e then q * 2 ^ e
  else if 2 ^ e < 2 * r then (q + 1) * 2 ^ e
  else if q % 2 = 0 then q * 2 ^ e
  else (q + 1) * 2 ^ e

/-- Loop of the integer square root, one binary digit of the root after the
other from bit `b - 1` down. -/
def isqrtLoop (n : Nat) : Nat → Nat → Nat
  | 0, r => r
  | b + 1, r =>
    if (r + 2 ^ b) * (r + 2 ^ b) ≤ n then isqrtLoop n b (r + 2 ^ b) else isqrtLoop n b r

/-- Integer square root: the largest `s` with `s * s ≤ n`. -/
def isqrt (n : Nat) : Nat := isqrtLoop n (bitLen n) 0

/-- Go's `math.Sqrt` on a `float64` of value `x / 8` that is at least `4`: the
correctly rounded square root, in units of `2 ^ -52`.  The root of
`x / 8 * 2 ^ 104` is cut to its 53 leading bits `q`, and the comparison of the
argument with the square of the midpoint decides between `q` and `q + 1`. -/
def sqrtFloat64 (x : Nat) : Nat :=
  let n := x * 2 ^ 101
  let s := isqrt n
  let e := bitLen s - 53
  let q := s / 2 ^ e
  let m := (2 * q + 1) * 2 ^ e
  if 4 * n < m * m then q * 2 ^ e
  else if m * m < 4 * n then (q + 1) * 2 ^ e
  else if q % 2 = 0 then q * 2 ^ e
  else (q + 1) * 2 ^ e

/-- Go's `math.Ceil` on a `float64` of value `r / 2 ^ 52`, as a whole number. -/
def ceilFloat64 (r : Nat) : Nat := (r + 2 ^ 52 - 1) / 2 ^ 52

/-- The `minSize` of `estimateSquareSize` for the `float64` value
`totalSharesUsed` (a whole number above one):
`uint64 (math.Ceil (math.Sqrt (totalSharesUsed * 1.625 + 3)))`.  The product
and the sum are computed in eighths; with `fma` they are rounded once, and
otherwise one after the other. -/
def minSize (fma : Bool) (totalSharesUsed : Nat) : Nat :=
  let padded :=
    if fma then
      roundToFloat64 (worstCasePaddingCoefficient * totalSharesUsed + 8 * worstCasePaddingBase)
    else
      roundToFloat64 (roundToFloat64 (worstCasePaddingCoefficient * totalSharesUsed)
        + 8 * worstCasePaddingBase)
  ceilFloat64 (sqrtFloat64 padded)

/-- Function `maxIndexWrapperOverhead`: the overhead of wrapping a payload that
fills the whole square with one share index.  The allocation of the synthetic
payload panics when its length does not fit an `int`. -/
def maxIndexWrapperOverhead (c : AppConsts) (squareSize : Nat) : Option Nat :=
  let maxTxLen := squareSize * squareSize * c.ContinuationCompactShareContentSize % 2 ^ 64
  if 2 ^ 63 ≤ maxTxLen then none
  else
    match MarshalIndexWrapperLen maxTxLen [squareSize * squareSize % 2 ^ 64 % 2 ^ 32] with
    | none => none
    | some wtx => some (wtx - maxTxLen)

/-- Function `maxIndexOverhead`: the overhead of one more share index in an
envelope, plus the varint length of the largest share index. -/
def maxIndexOverhead (squareSize : Nat) : Option Nat :=
  let maxShareIndex := squareSize * squareSize % 2 ^ 64
  match PutUvarint MaxVarintLen32 maxShareIndex with
  | none => none
  | some maxIndexLen =>
    match MarshalIndexWrapperLen 1 [maxShareIndex % 2 ^ 32] with
    | none => none
    | some wtx =>
      match MarshalIndexWrapperLen 1
          [maxShareIndex % 2 ^ 32, (maxShareIndex + 2 ^ 64 - 1) % 2 ^ 64 % 2 ^ 32] with
      | none => none
      | some wtx2 => some (wtx2 - wtx + maxIndexLen)

/-- One iteration of the loop of `estimateTxShares`: the bytes of one
transaction are added to `txbytes`. -/
def txBytesStep (maxWTxOverhead maxIndexOverhead : Nat) (txbytes : Nat) (pTx : parsedTx) : Nat :=
  if pTx.normalTx.length ≠ 0 then
    let txLen := pTx.normalTx.length
    let txLen := txLen + DelimLen txLen
    txbytes + txLen
  else
    let txLen := pTx.blobTx.Tx.length + maxWTxOverhead
      + (maxIndexOverhead * pTx.blobTx.Blobs.length)
    let txLen := txLen + DelimLen txLen
    txbytes + txLen

/-- Function `estimateTxShares`: the number of compact shares used by the
transactions, with the overheads taken at `squareSize`. -/
def estimateTxShares (c : AppConsts) (squareSize : Nat) (ptxs : List parsedTx) : Option Nat :=
  match maxIndexWrapperOverhead c squareSize with
  | none => none
  | some maxWTxOverhead =>
    match maxIndexOverhead squareSize with
    | none => none
    | some maxIndexOverhead =>
      let txbytes := ptxs.foldl (txBytesStep maxWTxOverhead maxIndexOverhead) 0
      some (CompactSharesNeeded c txbytes)

/-- First loop of `estimateSquareSize`: the shares used by the blobs of the
blob transactions; `blobTxSharesUsed` stands for `blobtypes.BlobTxSharesUsed`. -/
def blobSharesUsed (blobTxSharesUsed : BlobTx → Nat) (txs : List parsedTx) : Nat :=
  txs.foldl
    (fun blobSharesUsed ptx =>
      if ptx.normalTx.length ≠ 0 then blobSharesUsed
      else blobSharesUsed + blobTxSharesUsed ptx.blobTx)
    0

/-- Function `estimateSquareSize`: the estimated square size and the number of
shares used by transactions (the start of the non-reserved namespaces).  The
flag `fma` tells whether the product and the sum of the padding are fused. -/
def estimateSquareSize (c : AppConsts) (fma : Bool) (blobTxSharesUsed : BlobTx → Nat)
    (txs : List parsedTx) : Option (Nat × Nat) :=
  match estimateTxShares c c.DefaultMaxSquareSize txs with
  | none => none
  | some txSharesUsed =>
    let totalSharesUsed :=
      roundToFloat64 (txSharesUsed + blobSharesUsed blobTxSharesUsed txs)
    if totalSharesUsed ≤ 1 then some (c.DefaultMinSquareSize, txSharesUsed)
    else
      let squareSize := RoundUpPowerOfTwo (minSize fma totalSharesUsed)
      let squareSize :=
        if squareSize ≥ c.DefaultMaxSquareSize then c.DefaultMaxSquareSize else squareSize
      let squareSize :=
        if squareSize ≤ c.DefaultMinSquareSize then c.DefaultMinSquareSize else squareSize
      some (squareSize, txSharesUsed)

/-! ## Sample inputs -/

/-- Configuration of the concrete scenario: square sizes from 1 to 128, and
compact shares of 474 and 478 content bytes. -/
def scenarioConsts : AppConsts :=
  { DefaultMinSquareSize := 1
    DefaultMaxSquareSize := 128
    FirstCompactShareContentSize := 474
    ContinuationCompactShareContentSize := 478 }

/-- Plain transaction of `n` zero bytes. -/
def plainTx (n : Nat) : parsedTx :=
  { normalTx := List.replicate n 0, blobTx := { Tx := [], Blobs := [], TypeId := "" } }

/-- Blob transaction whose wrapped transaction has `n` zero bytes and that
carries one blob of `m` zero bytes. -/
def oneBlobTx (n m : Nat) : parsedTx :=
  { normalTx := []
    blobTx :=
      { Tx := List.replicate n 0
        Blobs := [{ NamespaceId := [1], Data := List.replicate m 0, ShareVersion := 0 }]
        TypeId := "BLOB" } }


/-- Configuration of the second concrete scenario: as `scenarioConsts`, with
square sizes from 1 to 64. -/
def scenarioConsts64 : AppConsts :=
  { DefaultMinSquareSize := 1
    DefaultMaxSquareSize := 64
    FirstCompactShareContentSize := 474
    ContinuationCompactShareContentSize := 478 }

/-- Blob transaction with the given wrapped bytes and blobs. -/
def blobTxOf (tx : List UInt8) (blobs : List Blob) : parsedTx :=
  { normalTx := [], blobTx := { Tx := tx, Blobs := blobs, TypeId := "BLOB" } }

/-- Transaction without any bytes: empty `normalTx` and empty `blobTx`. -/
def emptyTx : parsedTx :=
  { normalTx := [], blobTx := { Tx := [], Blobs := [], TypeId := "" } }

/-! ## Notions of the specification -/

/-- Capacity in bytes of `k` compact shares. -/
def compactCapacity (c : AppConsts) (k : Nat) : Nat :=
  if k = 0 then 0
  else c.FirstCompactShareContentSize + (k - 1) * c.ContinuationCompactShareContentSize

/-- Correct configuration: the square size bounds are powers of two in order,
the largest share index `DefaultMaxSquareSize ^ 2` fits a `uint32`, and the
payload that fills the largest square fits an `int`. -/
structure AppConsts.WellFormed (c : AppConsts) : Prop where
  min_pow : ∃ k, c.DefaultMinSquareSize = 2 ^ k
  max_pow : ∃ k, c.DefaultMaxSquareSize = 2 ^ k
  min_le_max : c.DefaultMinSquareSize ≤ c.DefaultMaxSquareSize
  index_fits : c.DefaultMaxSquareSize * c.DefaultMaxSquareSize < 2 ^ 32
  payload_fits : c.DefaultMaxSquareSize * c.DefaultMaxSquareSize
    * c.ContinuationCompactShareContentSize < 2 ^ 63

/-- Search for the least `n` from `n` upwards with `k ≤ 8 * n * n`; the first
argument bounds the number of steps. -/
def ceilSqrtLoop (k : Nat) : Nat → Nat → Nat
  | 0, n => n
  | fuel + 1, n => if k ≤ 8 * (n * n) then n else ceilSqrtLoop k fuel (n + 1)

/-- The ceiling of the square root of `k / 8` in exact arithmetic. -/
def ceilSqrtEighths (k : Nat) : Nat := ceilSqrtLoop k k 0

/-- The `minSide` of the specification in exact arithmetic: the ceiling of the
square root of `totalShares * 1.625 + 3`. -/
def minSide (totalShares : Nat) : Nat := ceilSqrtEighths (13 * totalShares + 24)

/-- The clamp step in the words of the specification: a square size above the
maximum is set to the maximum, one below the minimum to the minimum. -/
def clampSquareSize (squareSize minSquareSize maxSquareSize : Nat) : Nat :=
  if squareSize > maxSquareSize then maxSquareSize
  else if squareSize < minSquareSize then minSquareSize
  else squareSize

/-- Bytes that one transaction adds in the loop of `estimateTxShares`. -/
def txBytes (maxWTxOverhead maxIndexOverhead : Nat) (pTx : parsedTx) : Nat :=
  txBytesStep maxWTxOverhead maxIndexOverhead 0 pTx

/-- Shares that one transaction adds in the loop of `estimateSquareSize`. -/
def blobSharesOf (blobTxSharesUsed : BlobTx → Nat) (ptx : parsedTx) : Nat :=
  if ptx.normalTx.length ≠ 0 then 0 else blobTxSharesUsed ptx.blobTx

/-- Transaction in the words of the specification: a tagged union of a plain
transaction and a blob carrier. -/
inductive ParsedTransaction where
  | Plain (bytes : List UInt8)
  | BlobCarrier (wrappedTxBytes : List UInt8) (blobs : List Blob)
  deriving DecidableEq, Repr

/-- The variant a `parsedTx` stands for: the estimator takes a transaction
with non-empty `normalTx` as plain and any other as a blob carrier. -/
def parsedTx.toSpec (ptx : parsedTx) : ParsedTransaction :=
  if ptx.normalTx.length ≠ 0 then ParsedTransaction.Plain ptx.normalTx
  else ParsedTransaction.BlobCarrier ptx.blobTx.Tx ptx.blobTx.Blobs

/-- Effective encoded length of a transaction in the words of the
specification, for the two overheads of the calibrator. -/
def effectiveLen (wrapperOverhead indexOverhead : Nat) : ParsedTransaction → Nat
  | ParsedTransaction.Plain bytes => bytes.length + DelimLen bytes.length
  | ParsedTransaction.BlobCarrier wrappedTxBytes blobs =>
    wrappedTxBytes.length + wrapperOverhead + indexOverhead * blobs.length
      + DelimLen (wrappedTxBytes.length + wrapperOverhead + indexOverhead * blobs.length)

/-- Length in the compact share stream of the real encoding of a transaction:
a plain transaction is length-delimited, a blob transaction is wrapped in the
envelope with the share indexes of its blobs and then length-delimited. -/
def encodedTxLen (ptx : parsedTx) (shareIndexes : List Nat) : Nat :=
  if ptx.normalTx.length ≠ 0 then ptx.normalTx.length + DelimLen ptx.normalTx.length
  else IndexWrapperSize ptx.blobTx.Tx.length shareIndexes
    + DelimLen (IndexWrapperSize ptx.blobTx.Tx.length shareIndexes)

/-- Number of compact shares that the real encoding of the transactions needs,
each transaction coming with the share indexes of its blobs. -/
def actualTxShares (c : AppConsts) (txs : List (parsedTx × List Nat)) : Nat :=
  CompactSharesNeeded c ((txs.map (fun p => encodedTxLen p.1 p.2)).sum)

/-- Value of `maxIndexWrapperOverhead` when no conversion overflows: tag and
length of the payload field, the index field with one index, the type id. -/
def wrapperOverheadValue (c : AppConsts) (s : Nat) : Nat :=
  (if s * s * c.ContinuationCompactShareContentSize = 0 then 0
    else 1 + uvarintLen (s * s * c.ContinuationCompactShareContentSize))
  + uvarintLen (s * s) + 8

/-- Value of `maxIndexOverhead` when no conversion overflows. -/
def indexOverheadValue (s : Nat) : Nat := uvarintLen (s * s - 1) + uvarintLen (s * s)

/-- Two transaction lists that agree in everything but the contents of their
blobs. -/
def sameUpToBlobContents (l1 l2 : List parsedTx) : Prop :=
  List.Forall₂
    (fun a b => a.normalTx = b.normalTx ∧ a.blobTx.Tx = b.blobTx.Tx ∧
      a.blobTx.Blobs.length = b.blobTx.Blobs.length)
    l1 l2

/-- Number of bytes of the packed share indexes of an envelope: the sum of the
lengths of their varints. -/
def packedLen (shareIndexes : List Nat) : Nat := (shareIndexes.map uvarintLen).sum

/-- Marginal cost of one more share index: the growth of the envelope of a
payload of `txLen` bytes when the index `x` is added after the indexes
`shareIndexes`. -/
def indexCost (txLen : Nat) (shareIndexes : List Nat) (x : Nat) : Nat :=
  IndexWrapperSize txLen (shareIndexes ++ [x]) - IndexWrapperSize txLen shareIndexes

/-! ## Varint lengths -/

theorem putUvarintLoop_fuel (f1 : Nat) : ∀ (f2 x : Nat), x ≤ f1 → x ≤ f2 →
    putUvarintLoop f1 x = putUvarintLoop f2 x := by
  induction f1 with
  | zero =>
    intro f2 x h1 _
    have hx : x = 0 := by omega
    subst hx
    cases f2 <;> simp [putUvarintLoop]
  | succ f1 ih =>
    intro f2 x h1 h2
    cases f2 with
    | zero =>
      have hx : x = 0 := by omega
      subst hx
      simp [putUvarintLoop]
    | succ f2 =>
      simp only [putUvarintLoop]
      split
      · rename_i h
        have hd : x / 128 < x := Nat.div_lt_self (by omega) (by omega)
        rw [ih f2 (x / 128) (by omega) (by omega)]
      · rfl

theorem uvarintLen_eq (x : Nat) :
    uvarintLen x = if 128 ≤ x then uvarintLen (x / 128) + 1 else 1 := by
  unfold uvarintLen
  cases x with
  | zero => simp [putUvarintLoop]
  | succ x =>
    simp only [putUvarintLoop]
    split
    · rename_i h
      have hd : (x + 1) / 128 < x + 1 := Nat.div_lt_self (by omega) (by omega)
      rw [putUvarintLoop_fuel x ((x + 1) / 128) ((x + 1) / 128) (by omega) (Nat.le_refl _)]
    · rfl

theorem uvarintLen_pos (x : Nat) : 1 ≤ uvarintLen x := by
  rw [uvarintLen_eq]
  split <;> omega

theorem uvarintLen_small {x : Nat} (h : x < 128) : uvarintLen x = 1 := by
  rw [uvarintLen_eq]
  simp [Nat.not_le.mpr h]

theorem uvarintLen_mono : ∀ (y x : Nat), x ≤ y → uvarintLen x ≤ uvarintLen y := by
  intro y
  induction y using Nat.strong_induction_on with
  | _ y ih =>
    intro x hxy
    rw [uvarintLen_eq x, uvarintLen_eq y]
    by_cases hx : 128 ≤ x
    · have hy : 128 ≤ y := by omega
      simp only [hx, hy, if_true]
      have hd : y / 128 < y := Nat.div_lt_self (by omega) (by omega)
      have := ih (y / 128) hd (x / 128) (Nat.div_le_div_right hxy)
      omega
    · simp only [hx, if_false]
      split <;> omega

/-- A value below `128 ^ k` needs at most `k` bytes. -/
theorem uvarintLen_le_of_lt : ∀ (k x : Nat), 1 ≤ k → x < 128 ^ k → uvarintLen x ≤ k := by
  intro k
  induction k with
  | zero => intro x h; omega
  | succ k ih =>
    intro x _ hx
    rw [uvarintLen_eq]
    split
    · rename_i h
      have hk : 1 ≤ k := by
        rcases Nat.eq_zero_or_pos k with h0 | h0
        · subst h0; simp at hx; omega
        · exact h0
      have : x / 128 < 128 ^ k := by
        rw [Nat.div_lt_iff_lt_mul (by norm_num)]
        rw [pow_succ] at hx
        exact hx
      have := ih (x / 128) hk this
      omega
    · omega

/-- A value of at least `128 ^ k` needs more than `k` bytes. -/
theorem uvarintLen_gt_of_le : ∀ (k x : Nat), 128 ^ k ≤ x → k + 1 ≤ uvarintLen x := by
  intro k
  induction k with
  | zero => intro x _; have := uvarintLen_pos x; omega
  | succ k ih =>
    intro x hx
    rw [uvarintLen_eq]
    have h128 : 128 ≤ x := by
      have : 128 ^ 1 ≤ 128 ^ (k + 1) := Nat.pow_le_pow_right (by norm_num) (by omega)
      omega
    simp only [h128, if_true]
    have : 128 ^ k ≤ x / 128 := by
      rw [Nat.le_div_iff_mul_le (by norm_num)]
      rw [pow_succ] at hx
      exact hx
    have := ih (x / 128) this
    omega

/-- The length of a varint is small against its value. -/
theorem uvarintLen_le_div (x : Nat) : uvarintLen x ≤ 1 + x / 128 := by
  induction x using Nat.strong_induction_on with
  | _ x ih =>
    rw [uvarintLen_eq]
    split
    · rename_i h
      have hd : x / 128 < x := Nat.div_lt_self (by omega) (by omega)
      have h1 := ih (x / 128) hd
      have h2 : 1 ≤ x / 128 := by
        rw [Nat.le_div_iff_mul_le (by norm_num)]
        omega
      have h3 : x / 128 / 128 + 1 ≤ x / 128 := by omega
      omega
    · omega

/-! ## The contract of the envelope encoder -/

theorem IndexWrapperSize_eq (p : Nat) (idx : List Nat) :
    IndexWrapperSize p idx
      = (if p = 0 then 0 else 1 + uvarintLen p + p)
        + (if idx.length = 0 then 0
            else 1 + uvarintLen (idx.map uvarintLen).sum + (idx.map uvarintLen).sum)
        + 6 := by
  cases idx <;> simp [IndexWrapperSize]

/-- The envelope grows with the payload. -/
theorem IndexWrapperSize_mono_payload {p p2 : Nat} (h : p ≤ p2) (idx : List Nat) :
    IndexWrapperSize p idx ≤ IndexWrapperSize p2 idx := by
  have hv := uvarintLen_mono _ _ h
  rw [IndexWrapperSize_eq, IndexWrapperSize_eq]
  split_ifs <;> omega

/-- The envelope grows with one more share index. -/
theorem IndexWrapperSize_mono_append (p : Nat) (idx : List Nat) (x : Nat) :
    IndexWrapperSize p idx ≤ IndexWrapperSize p (idx ++ [x]) := by
  have hv : uvarintLen (idx.map uvarintLen).sum
      ≤ uvarintLen ((idx ++ [x]).map uvarintLen).sum :=
    uvarintLen_mono _ _ (by simp)
  have hs : (idx.map uvarintLen).sum ≤ ((idx ++ [x]).map uvarintLen).sum := by simp
  rw [IndexWrapperSize_eq, IndexWrapperSize_eq]
  have hl : (idx ++ [x]).length ≠ 0 := by simp
  simp only [hl, if_false]
  split_ifs <;> omega

/-- The envelope grows with the magnitude of a share index. -/
theorem IndexWrapperSize_mono_index (p : Nat) (l1 l2 : List Nat) {x y : Nat} (h : x ≤ y) :
    IndexWrapperSize p (l1 ++ x :: l2) ≤ IndexWrapperSize p (l1 ++ y :: l2) := by
  have hx := uvarintLen_mono _ _ h
  have hs : ((l1 ++ x :: l2).map uvarintLen).sum ≤ ((l1 ++ y :: l2).map uvarintLen).sum := by
    simp only [List.map_append, List.map_cons, List.sum_append, List.sum_cons]
    omega
  have hv := uvarintLen_mono _ _ hs
  rw [IndexWrapperSize_eq, IndexWrapperSize_eq]
  have hl1 : (l1 ++ x :: l2).length ≠ 0 := by simp
  have hl2 : (l1 ++ y :: l2).length ≠ 0 := by simp
  simp only [hl1, hl2, if_false]
  split_ifs <;> omega

/-- The envelope is never shorter than its payload, so that the overhead
`len (wtx) - maxTxLen` of the calibrator is not negative. -/
theorem le_IndexWrapperSize (p : Nat) (idx : List Nat) : p ≤ IndexWrapperSize p idx := by
  rw [IndexWrapperSize_eq]
  split_ifs <;> omega

/-! ## Rounding up to a power of two -/

theorem roundUpLoop_spec (input : Nat) : ∀ (fuel j : Nat), input ≤ 2 ^ j + fuel →
    (j = 0 ∨ 2 ^ (j - 1) < input) →
    ∃ k, roundUpLoop input fuel (2 ^ j) = 2 ^ k ∧ input ≤ 2 ^ k ∧ (k = 0 ∨ 2 ^ (k - 1) < input) := by
  intro fuel
  induction fuel with
  | zero =>
    intro j h1 h2
    exact ⟨j, by simp [roundUpLoop], by omega, h2⟩
  | succ fuel ih =>
    intro j h1 h2
    simp only [roundUpLoop]
    split
    · rename_i h
      have hp : 1 ≤ 2 ^ j := Nat.one_le_two_pow
      have := ih (j + 1) (by rw [pow_succ]; omega) (Or.inr (by simpa using h))
      rw [pow_succ] at this
      exact this
    · rename_i h
      exact ⟨j, rfl, by omega, h2⟩

/-- The contract of `RoundUpPowerOfTwo`: the result is a power of two, is at
least the input, and the next smaller power of two is below the input. -/
theorem RoundUpPowerOfTwo_spec (input : Nat) :
    ∃ k, RoundUpPowerOfTwo input = 2 ^ k ∧ input ≤ 2 ^ k ∧ (k = 0 ∨ 2 ^ (k - 1) < input) := by
  have := roundUpLoop_spec input input 0 (by omega) (Or.inl rfl)
  simpa [RoundUpPowerOfTwo] using this

theorem RoundUpPowerOfTwo_ge (input : Nat) : input ≤ RoundUpPowerOfTwo input := by
  obtain ⟨k, hk, h1, _⟩ := RoundUpPowerOfTwo_spec input
  omega

/-- No power of two that is at least the input lies below `RoundUpPowerOfTwo`. -/
theorem RoundUpPowerOfTwo_least (input m : Nat) (h : input ≤ 2 ^ m) :
    RoundUpPowerOfTwo input ≤ 2 ^ m := by
  obtain ⟨k, hk, _, h2⟩ := RoundUpPowerOfTwo_spec input
  rw [hk]
  rcases h2 with h2 | h2
  · subst h2
    exact Nat.one_le_two_pow
  · have hlt : 2 ^ (k - 1) < 2 ^ m := by omega
    have hkm : k - 1 < m := (Nat.pow_lt_pow_iff_right (by norm_num)).mp hlt
    exact Nat.pow_le_pow_right (by norm_num) (by omega)

theorem RoundUpPowerOfTwo_mono {a b : Nat} (h : a ≤ b) :
    RoundUpPowerOfTwo a ≤ RoundUpPowerOfTwo b := by
  obtain ⟨k, hk, h1, _⟩ := RoundUpPowerOfTwo_spec b
  rw [hk]
  exact RoundUpPowerOfTwo_least a k (by omega)

/-! ## The ceiling of the square root -/

theorem ceilSqrtLoop_spec (k : Nat) : ∀ (fuel n : Nat), k ≤ 8 * ((n + fuel) * (n + fuel)) →
    (∀ m, m < n → 8 * (m * m) < k) →
    k ≤ 8 * (ceilSqrtLoop k fuel n * ceilSqrtLoop k fuel n) ∧
      ∀ m, m < ceilSqrtLoop k fuel n → 8 * (m * m) < k := by
  intro fuel
  induction fuel with
  | zero =>
    intro n h1 h2
    simpa [ceilSqrtLoop] using ⟨h1, h2⟩
  | succ fuel ih =>
    intro n h1 h2
    simp only [ceilSqrtLoop]
    split
    · rename_i h
      exact ⟨h, h2⟩
    · rename_i h
      apply ih (n + 1)
      · have : n + 1 + fuel = n + (fuel + 1) := by omega
        rw [this]
        exact h1
      · intro m hm
        rcases Nat.lt_succ_iff_lt_or_eq.mp hm with hlt | heq
        · exact h2 m hlt
        · subst heq
          omega

/-- The result of `ceilSqrtEighths k` is the least `n` with `k ≤ 8 * n * n`. -/
theorem ceilSqrtEighths_spec (k : Nat) :
    k ≤ 8 * (ceilSqrtEighths k * ceilSqrtEighths k) ∧
      ∀ m, k ≤ 8 * (m * m) → ceilSqrtEighths k ≤ m := by
  have h := ceilSqrtLoop_spec k k 0
    (by
      simp only [Nat.zero_add]
      rcases Nat.eq_zero_or_pos k with h0 | h0
      · subst h0; simp
      · calc k = k * 1 := by omega
          _ ≤ k * k := Nat.mul_le_mul_left k h0
          _ ≤ 8 * (k * k) := by omega)
    (by intro m hm; omega)
  refine ⟨h.1, ?_⟩
  intro m hm
  by_contra hlt
  have hlt2 : m < ceilSqrtEighths k := by omega
  have := h.2 m hlt2
  omega

theorem ceilSqrtEighths_mono {a b : Nat} (h : a ≤ b) :
    ceilSqrtEighths a ≤ ceilSqrtEighths b :=
  (ceilSqrtEighths_spec a).2 _ (le_trans h (ceilSqrtEighths_spec b).1)

/-- The value `minSide t` is the least `n` with `n * n ≥ 1.625 * t + 3`. -/
theorem minSide_spec (t : Nat) :
    13 * t + 24 ≤ 8 * (minSide t * minSide t) ∧
      ∀ m, 13 * t + 24 ≤ 8 * (m * m) → minSide t ≤ m :=
  ceilSqrtEighths_spec (13 * t + 24)

theorem minSide_mono {a b : Nat} (h : a ≤ b) : minSide a ≤ minSide b := by
  unfold minSide
  apply ceilSqrtEighths_mono
  omega

/-! ## The `float64` computation of `minSize` -/

theorem bitLenLoop_fuel (f1 : Nat) : ∀ (f2 n : Nat), n ≤ f1 → n ≤ f2 →
    bitLenLoop f1 n = bitLenLoop f2 n := by
  induction f1 with
  | zero =>
    intro f2 n h1 _
    have hn : n = 0 := by omega
    subst hn
    cases f2 <;> simp [bitLenLoop]
  | succ f1 ih =>
    intro f2 n h1 h2
    cases f2 with
    | zero =>
      have hn : n = 0 := by omega
      subst hn
      simp [bitLenLoop]
    | succ f2 =>
      simp only [bitLenLoop]
      split
      · rfl
      · rw [ih f2 (n / 2) (by omega) (by omega)]

theorem bitLen_eq (n : Nat) : bitLen n = if n = 0 then 0 else bitLen (n / 2) + 1 := by
  unfold bitLen
  cases n with
  | zero => simp [bitLenLoop]
  | succ n =>
    simp only [bitLenLoop]
    rw [if_neg (by omega), if_neg (by omega)]
    rw [bitLenLoop_fuel n ((n + 1) / 2) ((n + 1) / 2) (by omega) (Nat.le_refl _)]

theorem lt_two_pow_bitLen (n : Nat) : n < 2 ^ bitLen n := by
  induction n using Nat.strong_induction_on with
  | _ n ih =>
    rw [bitLen_eq]
    split
    · rename_i h; subst h; simp
    · rename_i h
      have := ih (n / 2) (by omega)
      rw [pow_succ]
      omega

theorem two_pow_le_of_bitLen (n : Nat) (hn : 0 < n) : 2 ^ (bitLen n - 1) ≤ n := by
  induction n using Nat.strong_induction_on with
  | _ n ih =>
    rw [bitLen_eq, if_neg (by omega)]
    simp only [Nat.add_sub_cancel]
    by_cases h2 : n / 2 = 0
    · rw [h2, bitLen_eq]
      simp
      omega
    · have h := ih (n / 2) (by omega) (by omega)
      have hb : bitLen (n / 2) = (bitLen (n / 2) - 1) + 1 := by
        rw [bitLen_eq (n / 2), if_neg h2]
        omega
      rw [hb, pow_succ]
      omega

theorem bitLen_le_of_lt {n k : Nat} (h : n < 2 ^ k) : bitLen n ≤ k := by
  by_contra hc
  have hn : 0 < n := by
    rcases Nat.eq_zero_or_pos n with h0 | h0
    · subst h0
      rw [bitLen_eq] at hc
      simp at hc
    · exact h0
  have h1 := two_pow_le_of_bitLen n hn
  have h2 : 2 ^ k ≤ 2 ^ (bitLen n - 1) := Nat.pow_le_pow_right (by norm_num) (by omega)
  omega

theorem lt_bitLen_of_le {n k : Nat} (h : 2 ^ k ≤ n) : k < bitLen n := by
  by_contra hc
  have h1 := lt_two_pow_bitLen n
  have h2 : 2 ^ bitLen n ≤ 2 ^ k := Nat.pow_le_pow_right (by norm_num) (by omega)
  omega


/-- Dropping the bits below the 53 leading ones loses less than half. -/
theorem le_two_mul_div_mul (n : Nat) :
    n ≤ 2 * (n / 2 ^ (bitLen n - 53) * 2 ^ (bitLen n - 53)) := by
  rcases Nat.eq_zero_or_pos n with h0 | h0
  · subst h0; simp
  · have h1 := two_pow_le_of_bitLen n h0
    have h2 : 2 ^ (bitLen n - 53) ≤ 2 ^ (bitLen n - 1) :=
      Nat.pow_le_pow_right (by norm_num) (by omega)
    have hg : 0 < 2 ^ (bitLen n - 53) := Nat.two_pow_pos _
    generalize 2 ^ (bitLen n - 53) = g at *
    have hq : 1 ≤ n / g := (Nat.le_div_iff_mul_le hg).mpr (by omega)
    have hdm := Nat.div_add_mod n g
    have hr := Nat.mod_lt n hg
    have hc : g * (n / g) = n / g * g := Nat.mul_comm _ _
    have hge : g * 1 ≤ g * (n / g) := Nat.mul_le_mul_left g hq
    omega

theorem div_mul_le_roundToFloat64 (n : Nat) :
    n / 2 ^ (bitLen n - 53) * 2 ^ (bitLen n - 53) ≤ roundToFloat64 n := by
  unfold roundToFloat64
  simp only []
  have : n / 2 ^ (bitLen n - 53) * 2 ^ (bitLen n - 53)
      ≤ (n / 2 ^ (bitLen n - 53) + 1) * 2 ^ (bitLen n - 53) :=
    Nat.mul_le_mul_right _ (Nat.le_succ _)
  split
  · exact Nat.le_refl _
  · split
    · exact this
    · split
      · exact Nat.le_refl _
      · exact this

theorem le_two_mul_roundToFloat64 (n : Nat) : n ≤ 2 * roundToFloat64 n := by
  have h1 := le_two_mul_div_mul n
  have h2 := div_mul_le_roundToFloat64 n
  omega

theorem roundToFloat64_of_lt {n : Nat} (h : n < 2 ^ 53) : roundToFloat64 n = n := by
  have hb : bitLen n - 53 = 0 := by
    have := bitLen_le_of_lt h
    omega
  unfold roundToFloat64
  simp only [hb, pow_zero, Nat.div_one, Nat.mod_one, Nat.mul_one, Nat.mul_zero]
  simp

/-- The rounding is a rounding to nearest: the result is a multiple of the
spacing `2 ^ e` of the numbers with 53 significant bits around `n`, its
significand has no more than 53 bits, and it is no further than half a spacing
from `n`. -/
theorem roundToFloat64_nearest (n : Nat) :
    ∃ k, roundToFloat64 n = k * 2 ^ (bitLen n - 53) ∧ k ≤ 2 ^ 53 ∧
      2 * n ≤ 2 * roundToFloat64 n + 2 ^ (bitLen n - 53) ∧
      2 * roundToFloat64 n ≤ 2 * n + 2 ^ (bitLen n - 53) := by
  have hg : 0 < 2 ^ (bitLen n - 53) := Nat.two_pow_pos _
  have hq : n / 2 ^ (bitLen n - 53) < 2 ^ 53 := by
    rw [Nat.div_lt_iff_lt_mul hg, ← pow_add]
    have h1 := lt_two_pow_bitLen n
    have h2 : 2 ^ bitLen n ≤ 2 ^ (53 + (bitLen n - 53)) :=
      Nat.pow_le_pow_right (by norm_num) (by omega)
    omega
  have hdm := Nat.div_add_mod n (2 ^ (bitLen n - 53))
  have hr := Nat.mod_lt n hg
  have hc : 2 ^ (bitLen n - 53) * (n / 2 ^ (bitLen n - 53))
      = n / 2 ^ (bitLen n - 53) * 2 ^ (bitLen n - 53) := Nat.mul_comm _ _
  unfold roundToFloat64
  simp only []
  generalize 2 ^ (bitLen n - 53) = g at *
  generalize n / g = q at *
  generalize n % g = r at *
  split
  · exact ⟨q, rfl, by omega, by omega, by omega⟩
  · split
    · exact ⟨q + 1, rfl, by omega, by rw [Nat.add_mul]; omega, by rw [Nat.add_mul]; omega⟩
    · split
      · exact ⟨q, rfl, by omega, by omega, by omega⟩
      · exact ⟨q + 1, rfl, by omega, by rw [Nat.add_mul]; omega, by rw [Nat.add_mul]; omega⟩

theorem isqrtLoop_spec (n : Nat) : ∀ (b r : Nat), r * r ≤ n → n < (r + 2 ^ b) * (r + 2 ^ b) →
    isqrtLoop n b r * isqrtLoop n b r ≤ n ∧
      n < (isqrtLoop n b r + 1) * (isqrtLoop n b r + 1) := by
  intro b
  induction b with
  | zero =>
    intro r h1 h2
    simpa [isqrtLoop] using ⟨h1, h2⟩
  | succ b ih =>
    intro r h1 h2
    simp only [isqrtLoop]
    split
    · rename_i h
      apply ih (r + 2 ^ b) h
      have : r + 2 ^ b + 2 ^ b = r + 2 ^ (b + 1) := by rw [pow_succ]; omega
      rw [this]
      exact h2
    · rename_i h
      exact ih r h1 (by omega)

theorem isqrt_spec (n : Nat) : isqrt n * isqrt n ≤ n ∧ n < (isqrt n + 1) * (isqrt n + 1) := by
  unfold isqrt
  apply isqrtLoop_spec
  · simp
  · have h1 := lt_two_pow_bitLen n
    have h2 : 1 ≤ 2 ^ bitLen n := Nat.one_le_two_pow
    have h3 : 2 ^ bitLen n * 1 ≤ 2 ^ bitLen n * 2 ^ bitLen n := Nat.mul_le_mul_left _ h2
    simp only [Nat.zero_add]
    omega

theorem le_isqrt {m n : Nat} (h : m * m ≤ n) : m ≤ isqrt n := by
  by_contra hc
  have h1 : isqrt n + 1 ≤ m := by omega
  have h2 := Nat.mul_le_mul h1 h1
  have := (isqrt_spec n).2
  omega

theorem isqrt_le {m n : Nat} (h : n ≤ m * m) : isqrt n ≤ m := by
  by_contra hc
  have h1 : m + 1 ≤ isqrt n := by omega
  have h2 := Nat.mul_le_mul h1 h1
  have h3 := (isqrt_spec n).1
  have h4 : m * m < (m + 1) * (m + 1) := by nlinarith
  omega

/-- The two candidates of the rounded square root. -/
theorem sqrtFloat64_cases (x : Nat) :
    ∃ e q, e = bitLen (isqrt (x * 2 ^ 101)) - 53 ∧ q = isqrt (x * 2 ^ 101) / 2 ^ e ∧
      ((sqrtFloat64 x = q * 2 ^ e ∧
          4 * (x * 2 ^ 101) ≤ (2 * q + 1) * 2 ^ e * ((2 * q + 1) * 2 ^ e)) ∨
        (sqrtFloat64 x = (q + 1) * 2 ^ e ∧
          (2 * q + 1) * 2 ^ e * ((2 * q + 1) * 2 ^ e) ≤ 4 * (x * 2 ^ 101))) := by
  refine ⟨_, _, rfl, rfl, ?_⟩
  unfold sqrtFloat64
  simp only []
  split
  · rename_i h
    exact Or.inl ⟨rfl, by omega⟩
  · rename_i h
    split
    · rename_i h2
      exact Or.inr ⟨rfl, by omega⟩
    · rename_i h2
      split
      · exact Or.inl ⟨rfl, by omega⟩
      · exact Or.inr ⟨rfl, by omega⟩


/-- The square root is rounded to nearest: the result is a multiple of the
spacing `2 ^ e`, and the argument lies between the squares of the two midpoints
next to the result. -/
theorem sqrtFloat64_nearest (x : Nat) :
    ∃ k, sqrtFloat64 x = k * 2 ^ (bitLen (isqrt (x * 2 ^ 101)) - 53) ∧
      (2 * k - 1) * 2 ^ (bitLen (isqrt (x * 2 ^ 101)) - 53)
          * ((2 * k - 1) * 2 ^ (bitLen (isqrt (x * 2 ^ 101)) - 53)) ≤ 4 * (x * 2 ^ 101) ∧
      4 * (x * 2 ^ 101) ≤ (2 * k + 1) * 2 ^ (bitLen (isqrt (x * 2 ^ 101)) - 53)
          * ((2 * k + 1) * 2 ^ (bitLen (isqrt (x * 2 ^ 101)) - 53)) := by
  obtain ⟨e, q, he, hq, hR⟩ := sqrtFloat64_cases x
  rw [← he]
  have hg : 0 < 2 ^ e := Nat.two_pow_pos _
  have hs := isqrt_spec (x * 2 ^ 101)
  have hqs : q * 2 ^ e ≤ isqrt (x * 2 ^ 101) := by
    rw [hq]; exact Nat.div_mul_le_self _ _
  have hsq : isqrt (x * 2 ^ 101) < (q + 1) * 2 ^ e := by
    rw [hq]
    have := Nat.lt_succ_self (isqrt (x * 2 ^ 101) / 2 ^ e)
    exact (Nat.div_lt_iff_lt_mul hg).mp this
  clear he hq
  generalize isqrt (x * 2 ^ 101) = s at *
  generalize x * 2 ^ 101 = N at *
  generalize 2 ^ e = g at *
  rcases hR with ⟨hR, hm⟩ | ⟨hR, hm⟩
  · refine ⟨q, hR, ?_, hm⟩
    have h1 : (2 * q - 1) * g ≤ 2 * s := by
      have : (2 * q - 1) * g ≤ 2 * q * g := Nat.mul_le_mul_right g (by omega)
      rw [Nat.mul_assoc] at this
      omega
    have h2 := Nat.mul_le_mul h1 h1
    have h3 : 2 * s * (2 * s) = 4 * (s * s) := by ring
    omega
  · refine ⟨q + 1, hR, ?_, ?_⟩
    · have : 2 * (q + 1) - 1 = 2 * q + 1 := by omega
      rw [this]
      exact hm
    · have h1 : 2 * (s + 1) ≤ (2 * (q + 1) + 1) * g := by
        rw [Nat.add_mul, Nat.mul_assoc]
        omega
      have h2 := Nat.mul_le_mul h1 h1
      have h3 : 2 * (s + 1) * (2 * (s + 1)) = 4 * ((s + 1) * (s + 1)) := by ring
      omega

theorem ceilFloat64_eq {r n : Nat} (h1 : (n - 1) * 2 ^ 52 < r) (h2 : r ≤ n * 2 ^ 52)
    (hn : 1 ≤ n) : ceilFloat64 r = n := by
  unfold ceilFloat64
  apply Nat.div_eq_of_lt_le
  · omega
  · omega

/-- The rounded square root of `x / 8` lies in the last unit interval below
the ceiling `n` of the exact square root, as long as `x < 2 ^ 51`. -/
theorem sqrtFloat64_exact (x n : Nat) (hx : x < 2 ^ 51) (hn : 1 ≤ n)
    (h1 : x ≤ 8 * (n * n)) (h2 : 8 * ((n - 1) * (n - 1)) < x) :
    (n - 1) * 2 ^ 52 < sqrtFloat64 x ∧ sqrtFloat64 x ≤ n * 2 ^ 52 := by
  obtain ⟨e, q, he, hq, hR⟩ := sqrtFloat64_cases x
  -- the size of `n`
  have hn24 : n - 1 < 2 ^ 24 := by
    by_contra hc
    have h3 : 2 ^ 24 ≤ n - 1 := by omega
    have h4 := Nat.mul_le_mul h3 h3
    omega
  -- the integer square root lies between the two grid points
  have hsle : isqrt (x * 2 ^ 101) ≤ n * 2 ^ 52 := by
    apply isqrt_le
    have : n * 2 ^ 52 * (n * 2 ^ 52) = 8 * (n * n) * 2 ^ 101 := by ring
    rw [this]
    exact Nat.mul_le_mul_right _ h1
  have hsge : (n - 1) * 2 ^ 52 ≤ isqrt (x * 2 ^ 101) := by
    apply le_isqrt
    have : (n - 1) * 2 ^ 52 * ((n - 1) * 2 ^ 52) = 8 * ((n - 1) * (n - 1)) * 2 ^ 101 := by ring
    rw [this]
    exact Nat.mul_le_mul_right _ (by omega)
  have hN : 8 * ((n - 1) * (n - 1)) * 2 ^ 101 + 2 ^ 101 ≤ x * 2 ^ 101 := by
    have : 8 * ((n - 1) * (n - 1)) + 1 ≤ x := h2
    have := Nat.mul_le_mul_right (2 ^ 101) this
    rw [Nat.add_mul] at this
    omega
  have hN2 : x * 2 ^ 101 ≤ 8 * (n * n) * 2 ^ 101 := Nat.mul_le_mul_right _ h1
  -- the exponent of the result
  have he24 : e ≤ 24 := by
    have hs : isqrt (x * 2 ^ 101) < 2 ^ 77 := by omega
    have := bitLen_le_of_lt hs
    omega
  have hg24 : 2 ^ e ≤ 2 ^ 24 := Nat.pow_le_pow_right (by norm_num) he24
  have hgpos : 0 < 2 ^ e := Nat.two_pow_pos _
  have hT : 2 ^ 52 = 2 ^ (52 - e) * 2 ^ e := by
    rw [← pow_add]
    congr 1
    omega
  have hqg : q * 2 ^ e ≤ isqrt (x * 2 ^ 101) := by
    rw [hq]
    exact Nat.div_mul_le_self _ _
  have hlow : (n - 1) * 2 ^ (52 - e) ≤ q := by
    rw [hq, Nat.le_div_iff_mul_le hgpos, Nat.mul_assoc, ← hT]
    exact hsge
  generalize isqrt (x * 2 ^ 101) = s at *
  generalize 2 ^ (52 - e) = d at *
  generalize 2 ^ e = g at *
  clear he hq
  constructor
  · -- lower bound
    rcases Nat.lt_or_ge ((n - 1) * d) q with hlt | hge
    · have h3 : ((n - 1) * d + 1) * g ≤ q * g := Nat.mul_le_mul_right g hlt
      have h4 : q * g ≤ sqrtFloat64 x := by
        rcases hR with ⟨hR, _⟩ | ⟨hR, _⟩
        · omega
        · rw [hR, Nat.add_mul]; omega
      rw [Nat.add_mul, Nat.mul_assoc, ← hT] at h3
      omega
    · have hqe : q = (n - 1) * d := by omega
      have hG : q * g = (n - 1) * 2 ^ 52 := by rw [hqe, Nat.mul_assoc, ← hT]
      rcases hR with ⟨_, hR⟩ | ⟨hR, _⟩
      · exfalso
        have hm : (2 * q + 1) * g = 2 * ((n - 1) * 2 ^ 52) + g := by
          rw [Nat.add_mul, Nat.mul_assoc, hG]; omega
        rw [hm] at hR
        have hG76 : (n - 1) * 2 ^ 52 ≤ (2 ^ 24 - 1) * 2 ^ 52 :=
          Nat.mul_le_mul_right _ (by omega)
        have hGg : (n - 1) * 2 ^ 52 * g ≤ (2 ^ 24 - 1) * 2 ^ 52 * 2 ^ 24 :=
          Nat.mul_le_mul hG76 hg24
        have hgg : g * g ≤ 2 ^ 24 * 2 ^ 24 := Nat.mul_le_mul hg24 hg24
        have hexp : (2 * ((n - 1) * 2 ^ 52) + g) * (2 * ((n - 1) * 2 ^ 52) + g)
            = 4 * (8 * ((n - 1) * (n - 1)) * 2 ^ 101) + 4 * ((n - 1) * 2 ^ 52 * g) + g * g := by
          ring
        rw [hexp] at hR
        omega
      · rw [hR, Nat.add_mul, hG]
        omega
  · -- upper bound
    rcases hR with ⟨hR, _⟩ | ⟨hR, hm⟩
    · omega
    · have h5 : (2 * q + 1) * g * ((2 * q + 1) * g) ≤ 2 * (n * 2 ^ 52) * (2 * (n * 2 ^ 52)) := by
        have : 2 * (n * 2 ^ 52) * (2 * (n * 2 ^ 52)) = 4 * (8 * (n * n) * 2 ^ 101) := by ring
        rw [this]
        omega
      have h6 : (2 * q + 1) * g ≤ 2 * (n * 2 ^ 52) := Nat.mul_self_le_mul_self_iff.mp h5
      have h7 : 2 * (n * 2 ^ 52) = 2 * (n * d) * g := by
        rw [hT]; ring
      rw [h7] at h6
      have h8 : 2 * q + 1 ≤ 2 * (n * d) := Nat.le_of_mul_le_mul_right h6 hgpos
      have h9 : q + 1 ≤ n * d := by omega
      have h10 : (q + 1) * g ≤ n * d * g := Nat.mul_le_mul_right g h9
      rw [hR, hT, ← Nat.mul_assoc]
      exact h10


theorem sqrtFloat64_large (x : Nat) (hx : 2 ^ 48 ≤ x) : 2 ^ 73 ≤ sqrtFloat64 x := by
  obtain ⟨e, q, he, hq, hR⟩ := sqrtFloat64_cases x
  have hs : 2 ^ 74 ≤ isqrt (x * 2 ^ 101) := by
    apply le_isqrt
    have := Nat.mul_le_mul_right (2 ^ 101) hx
    omega
  have h2 := le_two_mul_div_mul (isqrt (x * 2 ^ 101))
  rw [← he, ← hq] at h2
  rcases hR with ⟨hR, _⟩ | ⟨hR, _⟩
  · omega
  · rw [hR, Nat.add_mul]; omega

/-- A share count below `2 ^ 53` is converted to `float64` without rounding,
and the comparison with one is the comparison of the share counts. -/
theorem roundToFloat64_le_one (t : Nat) : roundToFloat64 t ≤ 1 ↔ t ≤ 1 := by
  rcases Nat.lt_or_ge t (2 ^ 53) with h | h
  · rw [roundToFloat64_of_lt h]
  · have := le_two_mul_roundToFloat64 t
    constructor <;> intro h1 <;> omega

/-- In the range where `float64` is exact the computed `minSize` is the
`minSide` of the specification. -/
theorem minSize_eq_of_lt (fma : Bool) (t : Nat) (h : 13 * t + 24 < 2 ^ 51) :
    minSize fma (roundToFloat64 t) = minSide t := by
  have h0 : roundToFloat64 t = t := roundToFloat64_of_lt (by omega)
  have h1 : roundToFloat64 (13 * t) = 13 * t := roundToFloat64_of_lt (by omega)
  have h2 : roundToFloat64 (13 * t + 24) = 13 * t + 24 := roundToFloat64_of_lt (by omega)
  have hx : (if fma then roundToFloat64 (13 * roundToFloat64 t + 8 * 3)
      else roundToFloat64 (roundToFloat64 (13 * roundToFloat64 t) + 8 * 3)) = 13 * t + 24 := by
    rw [h0, h1]
    simp only [Nat.reduceMul, h2, ite_self]
  unfold minSize minSide worstCasePaddingCoefficient worstCasePaddingBase
  simp only [hx]
  obtain ⟨hs1, hs2⟩ := ceilSqrtEighths_spec (13 * t + 24)
  generalize ceilSqrtEighths (13 * t + 24) = n at *
  have hn : 1 ≤ n := by
    rcases Nat.eq_zero_or_pos n with h0 | h0
    · subst h0; omega
    · exact h0
  have hlt : 8 * ((n - 1) * (n - 1)) < 13 * t + 24 := by
    by_contra hc
    have := hs2 (n - 1) (by omega)
    omega
  obtain ⟨ha, hb⟩ := sqrtFloat64_exact (13 * t + 24) n h hn hs1 hlt
  exact ceilFloat64_eq ha hb hn

/-- Beyond that range the computed `minSize` is at least `2 ^ 21`. -/
theorem minSize_large (fma : Bool) (t : Nat) (h : 2 ^ 51 ≤ 13 * t + 24) :
    2 ^ 21 ≤ minSize fma (roundToFloat64 t) := by
  have hx : 2 ^ 48 ≤ (if fma then roundToFloat64 (13 * roundToFloat64 t + 8 * 3)
      else roundToFloat64 (roundToFloat64 (13 * roundToFloat64 t) + 8 * 3)) := by
    have h0 := le_two_mul_roundToFloat64 t
    cases fma with
    | true =>
      have h1 := le_two_mul_roundToFloat64 (13 * roundToFloat64 t + 8 * 3)
      simp only [if_true]
      omega
    | false =>
      have h1 := le_two_mul_roundToFloat64 (13 * roundToFloat64 t)
      have h2 := le_two_mul_roundToFloat64 (roundToFloat64 (13 * roundToFloat64 t) + 8 * 3)
      simp only [Bool.false_eq_true, if_false]
      omega
  unfold minSize worstCasePaddingCoefficient worstCasePaddingBase
  simp only []
  have := sqrtFloat64_large _ hx
  unfold ceilFloat64
  rw [Nat.le_div_iff_mul_le (by norm_num)]
  omega

/-- And so is the `minSide` of the specification. -/
theorem minSide_large (t : Nat) (h : 2 ^ 51 ≤ 13 * t + 24) : 2 ^ 21 ≤ minSide t := by
  by_contra hc
  have h1 : minSide t ≤ 2 ^ 21 := by omega
  have h2 := Nat.mul_le_mul h1 h1
  have := (minSide_spec t).1
  omega

/-- The square size cut at a maximum below `2 ^ 21` is the same for the
computed `minSize` and for the `minSide` of the specification. -/
theorem min_roundUp_minSize (fma : Bool) (t hi : Nat) (hhi : hi < 2 ^ 21) :
    min (RoundUpPowerOfTwo (minSize fma (roundToFloat64 t))) hi
      = min (RoundUpPowerOfTwo (minSide t)) hi := by
  rcases Nat.lt_or_ge (13 * t + 24) (2 ^ 51) with h | h
  · rw [minSize_eq_of_lt fma t h]
  · have h1 := minSize_large fma t h
    have h2 := minSide_large t h
    have h3 := RoundUpPowerOfTwo_ge (minSize fma (roundToFloat64 t))
    have h4 := RoundUpPowerOfTwo_ge (minSide t)
    omega

/-! ## Compact shares -/

theorem CompactSharesNeeded_mono (c : AppConsts) {a b : Nat} (h : a ≤ b) :
    CompactSharesNeeded c a ≤ CompactSharesNeeded c b := by
  unfold CompactSharesNeeded
  by_cases ha : a = 0
  · simp [ha]
  · have hb : b ≠ 0 := by omega
    simp only [ha, hb, if_false]
    by_cases ha1 : a ≤ c.FirstCompactShareContentSize
    · simp only [ha1, if_true]
      split
      · exact Nat.le_refl 1
      · exact Nat.le_add_right 1 _
    · have hb1 : ¬ b ≤ c.FirstCompactShareContentSize := by omega
      simp only [ha1, hb1, if_false]
      have : (a - c.FirstCompactShareContentSize + c.ContinuationCompactShareContentSize - 1)
          / c.ContinuationCompactShareContentSize
          ≤ (b - c.FirstCompactShareContentSize + c.ContinuationCompactShareContentSize - 1)
          / c.ContinuationCompactShareContentSize :=
        Nat.div_le_div_right (by omega)
      omega

/-- The shares counted by `CompactSharesNeeded` hold the sequence, and no
smaller number of shares does. -/
theorem CompactSharesNeeded_spec (c : AppConsts)
    (hc : 0 < c.ContinuationCompactShareContentSize) (n : Nat) :
    n ≤ compactCapacity c (CompactSharesNeeded c n) ∧
      ∀ k, n ≤ compactCapacity c k → CompactSharesNeeded c n ≤ k := by
  unfold CompactSharesNeeded compactCapacity
  by_cases h0 : n = 0
  · simp [h0]
  · simp only [h0, if_false]
    by_cases h1 : n ≤ c.FirstCompactShareContentSize
    · simp only [h1, if_true]
      refine ⟨by simpa using h1, ?_⟩
      intro k hk
      by_cases hk0 : k = 0
      · simp [hk0] at hk; omega
      · omega
    · simp only [h1, if_false]
      generalize hF : c.FirstCompactShareContentSize = F at *
      generalize hC : c.ContinuationCompactShareContentSize = C at *
      have hq : (n - F + C - 1) / C * C ≤ n - F + C - 1 := Nat.div_mul_le_self _ _
      have hq2 : n - F + C - 1 < (n - F + C - 1) / C * C + C := Nat.lt_div_mul_add hc
      generalize (n - F + C - 1) / C = q at hq hq2 ⊢
      constructor
      · have h3 : 1 + q ≠ 0 := by omega
        simp only [h3, if_false]
        have h4 : 1 + q - 1 = q := by omega
        rw [h4]
        omega
      · intro k hk
        by_cases hk0 : k = 0
        · simp [hk0] at hk; omega
        · simp only [hk0, if_false] at hk
          by_contra hlt
          have h5 : k - 1 + 1 ≤ q := by omega
          have h6 : (k - 1 + 1) * C ≤ q * C := Nat.mul_le_mul_right C h5
          rw [Nat.add_mul] at h6
          omega

/-! ## The loops as sums -/

theorem foldl_txBytesStep (w i : Nat) (txs : List parsedTx) : ∀ (a : Nat),
    txs.foldl (txBytesStep w i) a = a + (txs.map (txBytes w i)).sum := by
  induction txs with
  | nil => intro a; simp
  | cons tx txs ih =>
    intro a
    simp only [List.foldl_cons, List.map_cons, List.sum_cons]
    rw [ih]
    have : txBytesStep w i a tx = a + txBytes w i tx := by
      unfold txBytes txBytesStep
      split <;> simp
    omega

theorem blobSharesUsed_eq_sum (B : BlobTx → Nat) (txs : List parsedTx) :
    blobSharesUsed B txs = (txs.map (blobSharesOf B)).sum := by
  unfold blobSharesUsed
  suffices h : ∀ (a : Nat), txs.foldl
      (fun blobSharesUsed ptx =>
        if ptx.normalTx.length ≠ 0 then blobSharesUsed
        else blobSharesUsed + B ptx.blobTx) a = a + (txs.map (blobSharesOf B)).sum by
    simpa using h 0
  induction txs with
  | nil => intro a; simp
  | cons tx txs ih =>
    intro a
    simp only [List.foldl_cons, List.map_cons, List.sum_cons]
    rw [ih]
    unfold blobSharesOf
    split <;> omega

/-! ## The calibrators under a correct configuration -/

theorem maxIndexWrapperOverhead_eq (c : AppConsts) (s : Nat) (h1 : s * s < 2 ^ 32)
    (h2 : s * s * c.ContinuationCompactShareContentSize < 2 ^ 63) :
    maxIndexWrapperOverhead c s
      = some (IndexWrapperSize (s * s * c.ContinuationCompactShareContentSize) [s * s]
          - s * s * c.ContinuationCompactShareContentSize) := by
  unfold maxIndexWrapperOverhead MarshalIndexWrapperLen
  have e1 : s * s * c.ContinuationCompactShareContentSize % 2 ^ 64
      = s * s * c.ContinuationCompactShareContentSize := Nat.mod_eq_of_lt (by omega)
  have e2 : s * s % 2 ^ 64 % 2 ^ 32 = s * s := by
    rw [Nat.mod_eq_of_lt (by omega : s * s < 2 ^ 64), Nat.mod_eq_of_lt h1]
  simp only [e1, e2]
  rw [if_neg (by omega)]

theorem maxIndexOverhead_eq (s : Nat) (h0 : 1 ≤ s) (h1 : s * s < 2 ^ 32) :
    maxIndexOverhead s
      = some (IndexWrapperSize 1 [s * s, s * s - 1] - IndexWrapperSize 1 [s * s]
          + uvarintLen (s * s)) := by
  unfold maxIndexOverhead MarshalIndexWrapperLen PutUvarint MaxVarintLen32
  have hpos : 1 ≤ s * s := Nat.mul_le_mul h0 h0
  have e0 : s * s % 2 ^ 64 = s * s := Nat.mod_eq_of_lt (by omega)
  have e1 : s * s % 2 ^ 32 = s * s := Nat.mod_eq_of_lt h1
  have e2 : (s * s + 2 ^ 64 - 1) % 2 ^ 64 % 2 ^ 32 = s * s - 1 := by omega
  have e3 : uvarintLen (s * s) ≤ 5 := uvarintLen_le_of_lt 5 _ (by norm_num) (by norm_num; omega)
  simp only [e0, e1, e2]
  rw [if_pos e3]

/-- Under a correct configuration `estimateTxShares` returns for every square
size up to the maximum. -/
theorem estimateTxShares_eq_some (c : AppConsts) (hc : c.WellFormed) (s : Nat) (h0 : 1 ≤ s)
    (hs : s ≤ c.DefaultMaxSquareSize) (txs : List parsedTx) :
    ∃ w i, maxIndexWrapperOverhead c s = some w ∧ maxIndexOverhead s = some i ∧
      estimateTxShares c s txs = some (CompactSharesNeeded c ((txs.map (txBytes w i)).sum)) := by
  have hss : s * s ≤ c.DefaultMaxSquareSize * c.DefaultMaxSquareSize := Nat.mul_le_mul hs hs
  have h1 : s * s < 2 ^ 32 := lt_of_le_of_lt hss hc.index_fits
  have h2 : s * s * c.ContinuationCompactShareContentSize < 2 ^ 63 :=
    lt_of_le_of_lt (Nat.mul_le_mul_right _ hss) hc.payload_fits
  refine ⟨_, _, maxIndexWrapperOverhead_eq c s h1 h2, maxIndexOverhead_eq s h0 h1, ?_⟩
  unfold estimateTxShares
  rw [maxIndexWrapperOverhead_eq c s h1 h2, maxIndexOverhead_eq s h0 h1]
  simp only [foldl_txBytesStep, Nat.zero_add]

theorem AppConsts.WellFormed.one_le_min {c : AppConsts} (hc : c.WellFormed) :
    1 ≤ c.DefaultMinSquareSize := by
  obtain ⟨k, hk⟩ := hc.min_pow
  rw [hk]
  exact Nat.one_le_two_pow

theorem AppConsts.WellFormed.one_le_max {c : AppConsts} (hc : c.WellFormed) :
    1 ≤ c.DefaultMaxSquareSize :=
  le_trans hc.one_le_min hc.min_le_max

theorem estimateTxShares_max_eq_some (c : AppConsts) (hc : c.WellFormed) (txs : List parsedTx) :
    ∃ n, estimateTxShares c c.DefaultMaxSquareSize txs = some n := by
  obtain ⟨w, i, _, _, h⟩ :=
    estimateTxShares_eq_some c hc c.DefaultMaxSquareSize hc.one_le_max (Nat.le_refl _) txs
  exact ⟨_, h⟩

theorem scenarioConsts_wellFormed : scenarioConsts.WellFormed where
  min_pow := ⟨0, rfl⟩
  max_pow := ⟨7, rfl⟩
  min_le_max := by decide
  index_fits := by decide
  payload_fits := by decide

theorem AppConsts.WellFormed.max_lt {c : AppConsts} (hc : c.WellFormed) :
    c.DefaultMaxSquareSize < 2 ^ 21 := by
  by_contra h
  have h1 : 2 ^ 21 ≤ c.DefaultMaxSquareSize := by omega
  have h2 := Nat.mul_le_mul h1 h1
  have := hc.index_fits
  omega

/-- The early return of `estimateSquareSize`. -/
theorem estimateSquareSize_fast (c : AppConsts) (fma : Bool) (B : BlobTx → Nat)
    (txs : List parsedTx) (n : Nat)
    (hn : estimateTxShares c c.DefaultMaxSquareSize txs = some n)
    (ht : n + blobSharesUsed B txs ≤ 1) :
    estimateSquareSize c fma B txs = some (c.DefaultMinSquareSize, n) := by
  unfold estimateSquareSize
  rw [hn]
  simp only []
  rw [if_pos ((roundToFloat64_le_one _).mpr ht)]

/-- The two clamps of `estimateSquareSize` as one expression, and the computed
`minSize` replaced by the `minSide` of the specification. -/
theorem estimateSquareSize_of_some (c : AppConsts) (fma : Bool) (B : BlobTx → Nat)
    (txs : List parsedTx) (n : Nat)
    (hn : estimateTxShares c c.DefaultMaxSquareSize txs = some n)
    (hmax : c.DefaultMaxSquareSize < 2 ^ 21) :
    estimateSquareSize c fma B txs
      = if n + blobSharesUsed B txs ≤ 1 then some (c.DefaultMinSquareSize, n)
        else some (max c.DefaultMinSquareSize
          (min (RoundUpPowerOfTwo (minSide (n + blobSharesUsed B txs)))
            c.DefaultMaxSquareSize), n) := by
  by_cases ht : n + blobSharesUsed B txs ≤ 1
  · rw [if_pos ht]
    exact estimateSquareSize_fast c fma B txs n hn ht
  · rw [if_neg ht]
    unfold estimateSquareSize
    rw [hn]
    simp only []
    rw [if_neg (fun h => ht ((roundToFloat64_le_one _).mp h))]
    congr 2
    rw [← min_roundUp_minSize fma (n + blobSharesUsed B txs) c.DefaultMaxSquareSize hmax]
    simp only [ge_iff_le]
    split <;> split <;> omega

/-! ## The square size -/

/-- Claim C1: under a correct configuration `estimateSquareSize` returns for
every transaction list, the empty one included, and the returned square size is
a power of two between `DefaultMinSquareSize` and `DefaultMaxSquareSize`. -/
theorem estimateSquareSize_power_of_two_in_bounds (c : AppConsts) (hc : c.WellFormed)
    (fma : Bool) (B : BlobTx → Nat) (txs : List parsedTx) :
    ∃ squareSize nonreserveStart,
      estimateSquareSize c fma B txs = some (squareSize, nonreserveStart) ∧
      (∃ k, squareSize = 2 ^ k) ∧
      c.DefaultMinSquareSize ≤ squareSize ∧ squareSize ≤ c.DefaultMaxSquareSize := by
  obtain ⟨n, hn⟩ := estimateTxShares_max_eq_some c hc txs
  rw [estimateSquareSize_of_some c fma B txs n hn hc.max_lt]
  have hmm := hc.min_le_max
  split
  · exact ⟨_, _, rfl, hc.min_pow, Nat.le_refl _, hmm⟩
  · refine ⟨_, _, rfl, ?_, by omega, by omega⟩
    obtain ⟨k, hk, _, _⟩ := RoundUpPowerOfTwo_spec (minSide (n + blobSharesUsed B txs))
    rcases Nat.le_total (RoundUpPowerOfTwo (minSide (n + blobSharesUsed B txs)))
      c.DefaultMaxSquareSize with h | h
    · rw [Nat.min_eq_left h]
      rcases Nat.le_total c.DefaultMinSquareSize
        (RoundUpPowerOfTwo (minSide (n + blobSharesUsed B txs))) with h2 | h2
      · rw [Nat.max_eq_right h2]
        exact ⟨k, hk⟩
      · rw [Nat.max_eq_left h2]
        exact hc.min_pow
    · rw [Nat.min_eq_right h, Nat.max_eq_right hmm]
      exact hc.max_pow

/-- Witness of C1: the scenario configuration with a plain and a blob
transaction. -/
theorem estimateSquareSize_power_of_two_in_bounds_witness :
    scenarioConsts.WellFormed ∧
    ∃ squareSize nonreserveStart,
      estimateSquareSize scenarioConsts false (BlobTxSharesUsed 478 482)
        [plainTx 10, oneBlobTx 300 256] = some (squareSize, nonreserveStart) ∧
      (∃ k, squareSize = 2 ^ k) ∧
      scenarioConsts.DefaultMinSquareSize ≤ squareSize ∧
      squareSize ≤ scenarioConsts.DefaultMaxSquareSize :=
  ⟨scenarioConsts_wellFormed,
    estimateSquareSize_power_of_two_in_bounds scenarioConsts scenarioConsts_wellFormed
      false (BlobTxSharesUsed 478 482) [plainTx 10, oneBlobTx 300 256]⟩

/-- Claim C3: under a correct configuration the second component returned by
`estimateSquareSize` is `estimateTxShares` at `DefaultMaxSquareSize`, on the fast
path and on the general path alike: it is the same number whatever the blob
share count `blobTxSharesUsed` is, hence whatever square size is chosen. -/
theorem estimateSquareSize_nonreserveStart (c : AppConsts) (hc : c.WellFormed)
    (txs : List parsedTx) :
    ∃ n, estimateTxShares c c.DefaultMaxSquareSize txs = some n ∧
      ∀ (fma : Bool) (B : BlobTx → Nat),
        ∃ squareSize, estimateSquareSize c fma B txs = some (squareSize, n) := by
  obtain ⟨n, hn⟩ := estimateTxShares_max_eq_some c hc txs
  refine ⟨n, hn, ?_⟩
  intro fma B
  rw [estimateSquareSize_of_some c fma B txs n hn hc.max_lt]
  split
  · exact ⟨_, rfl⟩
  · exact ⟨_, rfl⟩

/-- Witness of C3: the scenario configuration with a plain and a blob
transaction. -/
theorem estimateSquareSize_nonreserveStart_witness :
    scenarioConsts.WellFormed ∧
    ∃ n, estimateTxShares scenarioConsts scenarioConsts.DefaultMaxSquareSize
        [plainTx 10, oneBlobTx 300 256] = some n ∧
      ∀ (fma : Bool) (B : BlobTx → Nat), ∃ squareSize,
        estimateSquareSize scenarioConsts fma B [plainTx 10, oneBlobTx 300 256]
          = some (squareSize, n) :=
  ⟨scenarioConsts_wellFormed,
    estimateSquareSize_nonreserveStart scenarioConsts scenarioConsts_wellFormed
      [plainTx 10, oneBlobTx 300 256]⟩

/-- Claim C4: when the transaction shares plus the blob shares are at most one,
`estimateSquareSize` returns `DefaultMinSquareSize` together with the
transaction shares; under a correct configuration the empty list returns
`(DefaultMinSquareSize, 0)`. -/
theorem estimateSquareSize_degenerate (c : AppConsts) (hc : c.WellFormed) (fma : Bool)
    (B : BlobTx → Nat) :
    (∀ (txs : List parsedTx) (n : Nat),
        estimateTxShares c c.DefaultMaxSquareSize txs = some n →
        n + blobSharesUsed B txs ≤ 1 →
        estimateSquareSize c fma B txs = some (c.DefaultMinSquareSize, n)) ∧
      estimateSquareSize c fma B [] = some (c.DefaultMinSquareSize, 0) := by
  refine ⟨estimateSquareSize_fast c fma B, ?_⟩
  obtain ⟨w, i, _, _, h⟩ :=
    estimateTxShares_eq_some c hc c.DefaultMaxSquareSize hc.one_le_max (Nat.le_refl _) []
  have h0 : estimateTxShares c c.DefaultMaxSquareSize [] = some 0 := by
    rw [h]
    simp [CompactSharesNeeded]
  exact estimateSquareSize_fast c fma B [] 0 h0 (by simp [blobSharesUsed])

/-- Witness of C4: one plain transaction of ten bytes, and the empty list. -/
theorem estimateSquareSize_degenerate_witness :
    scenarioConsts.WellFormed ∧
    estimateSquareSize scenarioConsts false (BlobTxSharesUsed 478 482) [plainTx 10]
      = some (scenarioConsts.DefaultMinSquareSize, 1) ∧
    estimateSquareSize scenarioConsts false (BlobTxSharesUsed 478 482) []
      = some (scenarioConsts.DefaultMinSquareSize, 0) :=
  ⟨scenarioConsts_wellFormed,
    (estimateSquareSize_degenerate scenarioConsts scenarioConsts_wellFormed false
      (BlobTxSharesUsed 478 482)).1 [plainTx 10] 1 (by decide) (by decide),
    (estimateSquareSize_degenerate scenarioConsts scenarioConsts_wellFormed false
      (BlobTxSharesUsed 478 482)).2⟩

/-- Claim C5: under a correct configuration, when the transaction shares plus
the blob shares `t` exceed one, the returned square size is
`RoundUpPowerOfTwo m` clamped to the configured bounds, where `m` is the least
natural number with `8 * m * m ≥ 13 * t + 24`, that is the ceiling of the
square root of `1.625 * t + 3`; this holds for the `float64` computation with
and without a fused product and sum. -/
theorem estimateSquareSize_general_path (c : AppConsts) (hc : c.WellFormed) (fma : Bool)
    (B : BlobTx → Nat) (txs : List parsedTx) (n : Nat)
    (hn : estimateTxShares c c.DefaultMaxSquareSize txs = some n)
    (ht : 1 < n + blobSharesUsed B txs) :
    ∃ m, (13 * (n + blobSharesUsed B txs) + 24 ≤ 8 * (m * m) ∧
        ∀ j, 13 * (n + blobSharesUsed B txs) + 24 ≤ 8 * (j * j) → m ≤ j) ∧
      estimateSquareSize c fma B txs
        = some (clampSquareSize (RoundUpPowerOfTwo m)
            c.DefaultMinSquareSize c.DefaultMaxSquareSize, n) := by
  refine ⟨minSide (n + blobSharesUsed B txs), minSide_spec _, ?_⟩
  rw [estimateSquareSize_of_some c fma B txs n hn hc.max_lt, if_neg (by omega)]
  have hmm := hc.min_le_max
  congr 2
  unfold clampSquareSize
  split
  · omega
  · split <;> omega

/-- Witness of C5: two blob transactions with a total of three shares. -/
theorem estimateSquareSize_general_path_witness :
    scenarioConsts.WellFormed ∧
    ∃ m, (13 * (1 + blobSharesUsed (BlobTxSharesUsed 478 482)
              [oneBlobTx 30 25, oneBlobTx 40 60]) + 24 ≤ 8 * (m * m) ∧
        ∀ j, 13 * (1 + blobSharesUsed (BlobTxSharesUsed 478 482)
              [oneBlobTx 30 25, oneBlobTx 40 60]) + 24 ≤ 8 * (j * j) → m ≤ j) ∧
      estimateSquareSize scenarioConsts true (BlobTxSharesUsed 478 482)
          [oneBlobTx 30 25, oneBlobTx 40 60]
        = some (clampSquareSize (RoundUpPowerOfTwo m)
            scenarioConsts.DefaultMinSquareSize scenarioConsts.DefaultMaxSquareSize, 1) :=
  ⟨scenarioConsts_wellFormed,
    estimateSquareSize_general_path scenarioConsts scenarioConsts_wellFormed true
      (BlobTxSharesUsed 478 482) [oneBlobTx 30 25, oneBlobTx 40 60] 1
      (by decide) (by decide)⟩

/-- Claim C6: under a correct configuration, when the total exceeds one and the
`minSide` computed from it exceeds `DefaultMaxSquareSize`, `estimateSquareSize`
returns exactly `DefaultMaxSquareSize`, without an error. -/
theorem estimateSquareSize_clamped_to_max (c : AppConsts) (hc : c.WellFormed) (fma : Bool)
    (B : BlobTx → Nat) (txs : List parsedTx) (n : Nat)
    (hn : estimateTxShares c c.DefaultMaxSquareSize txs = some n)
    (ht : 1 < n + blobSharesUsed B txs)
    (hbig : c.DefaultMaxSquareSize < minSide (n + blobSharesUsed B txs)) :
    estimateSquareSize c fma B txs = some (c.DefaultMaxSquareSize, n) := by
  rw [estimateSquareSize_of_some c fma B txs n hn hc.max_lt, if_neg (by omega)]
  have := RoundUpPowerOfTwo_ge (minSide (n + blobSharesUsed B txs))
  have hmm := hc.min_le_max
  congr 2
  omega

theorem blobSharesUsed_oneBlobTx (f c n m : Nat) :
    blobSharesUsed (BlobTxSharesUsed f c) [oneBlobTx n m] = SparseSharesNeeded f c m := by
  simp [blobSharesUsed, oneBlobTx, BlobTxSharesUsed]

/-- Witness of C6: one blob of ten million bytes needs more shares than the
largest square has. -/
theorem estimateSquareSize_clamped_to_max_witness :
    scenarioConsts.WellFormed ∧
    estimateSquareSize scenarioConsts false (BlobTxSharesUsed 478 482)
        [oneBlobTx 30 10000000]
      = some (scenarioConsts.DefaultMaxSquareSize, 1) :=
  ⟨scenarioConsts_wellFormed,
    estimateSquareSize_clamped_to_max scenarioConsts scenarioConsts_wellFormed false
      (BlobTxSharesUsed 478 482) [oneBlobTx 30 10000000] 1 (by decide)
      (by rw [blobSharesUsed_oneBlobTx]; decide) (by rw [blobSharesUsed_oneBlobTx]; decide)⟩

/-- The clamped square size does not decrease when the total grows. -/
theorem clamp_mono (c : AppConsts) {a b : Nat} (h : a ≤ b) :
    max c.DefaultMinSquareSize (min (RoundUpPowerOfTwo (minSide a)) c.DefaultMaxSquareSize)
      ≤ max c.DefaultMinSquareSize
          (min (RoundUpPowerOfTwo (minSide b)) c.DefaultMaxSquareSize) := by
  have := RoundUpPowerOfTwo_mono (minSide_mono h)
  omega

/-- Claim C7: under a correct configuration, adding a transaction `tx`, plain
or blob-carrying, at any place of a transaction list does not decrease the
square size returned by `estimateSquareSize`. -/
theorem estimateSquareSize_monotone (c : AppConsts) (hc : c.WellFormed) (fma : Bool)
    (B : BlobTx → Nat) (l1 l2 : List parsedTx) (tx : parsedTx) :
    ∃ s n s2 n2, estimateSquareSize c fma B (l1 ++ l2) = some (s, n) ∧
      estimateSquareSize c fma B (l1 ++ tx :: l2) = some (s2, n2) ∧ s ≤ s2 := by
  obtain ⟨w, i, hw, hi, h1⟩ :=
    estimateTxShares_eq_some c hc c.DefaultMaxSquareSize hc.one_le_max (Nat.le_refl _) (l1 ++ l2)
  obtain ⟨w2, i2, hw2, hi2, h2⟩ :=
    estimateTxShares_eq_some c hc c.DefaultMaxSquareSize hc.one_le_max (Nat.le_refl _)
      (l1 ++ tx :: l2)
  have ew : w2 = w := by rw [hw] at hw2; exact (Option.some.inj hw2).symm
  have ei : i2 = i := by rw [hi] at hi2; exact (Option.some.inj hi2).symm
  subst ew ei
  rw [estimateSquareSize_of_some c fma B _ _ h1 hc.max_lt,
    estimateSquareSize_of_some c fma B _ _ h2 hc.max_lt]
  have hbytes : ((l1 ++ l2).map (txBytes w2 i2)).sum
      ≤ ((l1 ++ tx :: l2).map (txBytes w2 i2)).sum := by
    simp only [List.map_append, List.sum_append, List.map_cons, List.sum_cons]
    omega
  have hshares := CompactSharesNeeded_mono c hbytes
  have hblob : blobSharesUsed B (l1 ++ l2) ≤ blobSharesUsed B (l1 ++ tx :: l2) := by
    rw [blobSharesUsed_eq_sum, blobSharesUsed_eq_sum]
    simp only [List.map_append, List.sum_append, List.map_cons, List.sum_cons]
    omega
  have hmm := hc.min_le_max
  by_cases ht : CompactSharesNeeded c ((l1 ++ l2).map (txBytes w2 i2)).sum
      + blobSharesUsed B (l1 ++ l2) ≤ 1
  · rw [if_pos ht]
    split
    · exact ⟨_, _, _, _, rfl, rfl, Nat.le_refl _⟩
    · exact ⟨_, _, _, _, rfl, rfl, by omega⟩
  · rw [if_neg ht, if_neg (by omega)]
    exact ⟨_, _, _, _, rfl, rfl, clamp_mono c (by omega)⟩

/-- Witness of C7: a blob transaction added between two plain transactions. -/
theorem estimateSquareSize_monotone_witness :
    scenarioConsts.WellFormed ∧
    ∃ s n s2 n2,
      estimateSquareSize scenarioConsts false (BlobTxSharesUsed 478 482)
        ([plainTx 10] ++ [plainTx 20]) = some (s, n) ∧
      estimateSquareSize scenarioConsts false (BlobTxSharesUsed 478 482)
        ([plainTx 10] ++ oneBlobTx 30 25 :: [plainTx 20]) = some (s2, n2) ∧ s ≤ s2 :=
  ⟨scenarioConsts_wellFormed,
    estimateSquareSize_monotone scenarioConsts scenarioConsts_wellFormed false
      (BlobTxSharesUsed 478 482) [plainTx 10] [plainTx 20] (oneBlobTx 30 25)⟩

/-! ## The transaction shares -/

theorem estimateTxShares_eq_sum (c : AppConsts) (s : Nat) (txs : List parsedTx) :
    estimateTxShares c s txs
      = (maxIndexWrapperOverhead c s).bind (fun w =>
          (maxIndexOverhead s).bind (fun i =>
            some (CompactSharesNeeded c ((txs.map (txBytes w i)).sum)))) := by
  unfold estimateTxShares
  cases maxIndexWrapperOverhead c s with
  | none => rfl
  | some w =>
    cases maxIndexOverhead s with
    | none => rfl
    | some i => simp [foldl_txBytesStep]

theorem txBytes_eq_effectiveLen (w i : Nat) (tx : parsedTx) :
    txBytes w i tx = effectiveLen w i tx.toSpec := by
  unfold txBytes txBytesStep parsedTx.toSpec
  split <;> simp [effectiveLen]

/-- Claim C8: for every square size and transaction list, `estimateTxShares`
is `CompactSharesNeeded` of the sum of the effective lengths, with the wrapper
and index overheads that the calibrators return at that square size; it panics
exactly when a calibrator does.  The delimiter of a blob carrier is taken over
the length inflated by the overheads. -/
theorem estimateTxShares_eq_effective (c : AppConsts) (s : Nat) (txs : List parsedTx) :
    estimateTxShares c s txs
      = (maxIndexWrapperOverhead c s).bind (fun w =>
          (maxIndexOverhead s).bind (fun i =>
            some (CompactSharesNeeded c
              ((txs.map (fun tx => effectiveLen w i tx.toSpec)).sum)))) := by
  rw [estimateTxShares_eq_sum]
  have e : ∀ w i, txBytes w i = fun tx => effectiveLen w i tx.toSpec :=
    fun w i => funext (txBytes_eq_effectiveLen w i)
  simp only [e]

/-- Claim C9: `estimateTxShares`, at every square size, and
`estimateSquareSize` return the same on two transaction lists that are
permutations of each other. -/
theorem estimate_perm (c : AppConsts) (fma : Bool) (B : BlobTx → Nat) (s : Nat)
    (l1 l2 : List parsedTx) (h : l1.Perm l2) :
    estimateTxShares c s l1 = estimateTxShares c s l2 ∧
      estimateSquareSize c fma B l1 = estimateSquareSize c fma B l2 := by
  have key : ∀ s, estimateTxShares c s l1 = estimateTxShares c s l2 := by
    intro s
    rw [estimateTxShares_eq_sum, estimateTxShares_eq_sum]
    have : ∀ w i, (l1.map (txBytes w i)).sum = (l2.map (txBytes w i)).sum :=
      fun w i => (h.map _).sum_eq
    simp only [this]
  refine ⟨key s, ?_⟩
  have hb : blobSharesUsed B l1 = blobSharesUsed B l2 := by
    rw [blobSharesUsed_eq_sum, blobSharesUsed_eq_sum]
    exact (h.map _).sum_eq
  unfold estimateSquareSize
  rw [key, hb]

theorem sample_perm :
    List.Perm [plainTx 10, oneBlobTx 30 25, plainTx 20]
      [oneBlobTx 30 25, plainTx 20, plainTx 10] :=
  @List.perm_append_comm _ [plainTx 10] [oneBlobTx 30 25, plainTx 20]

/-- Witness of C9: three transactions and a rotation of them. -/
theorem estimate_perm_witness :
    estimateTxShares scenarioConsts 64 [plainTx 10, oneBlobTx 30 25, plainTx 20]
        = estimateTxShares scenarioConsts 64 [oneBlobTx 30 25, plainTx 20, plainTx 10] ∧
      estimateSquareSize scenarioConsts false (BlobTxSharesUsed 478 482)
          [plainTx 10, oneBlobTx 30 25, plainTx 20]
        = estimateSquareSize scenarioConsts false (BlobTxSharesUsed 478 482)
          [oneBlobTx 30 25, plainTx 20, plainTx 10] :=
  estimate_perm scenarioConsts false (BlobTxSharesUsed 478 482) 64
    [plainTx 10, oneBlobTx 30 25, plainTx 20] [oneBlobTx 30 25, plainTx 20, plainTx 10]
    sample_perm

/-! ## The overheads in closed form -/

theorem uvarintLen_index_le {s : Nat} (h1 : s * s < 2 ^ 32) : uvarintLen (s * s) ≤ 5 :=
  uvarintLen_le_of_lt 5 _ (by norm_num) (by norm_num; omega)

theorem maxIndexWrapperOverhead_val (c : AppConsts) (s : Nat) (h1 : s * s < 2 ^ 32)
    (h2 : s * s * c.ContinuationCompactShareContentSize < 2 ^ 63) :
    maxIndexWrapperOverhead c s = some (wrapperOverheadValue c s) := by
  rw [maxIndexWrapperOverhead_eq c s h1 h2]
  congr 1
  have hv := uvarintLen_index_le h1
  have hvv : uvarintLen (uvarintLen (s * s)) = 1 := uvarintLen_small (by omega)
  unfold IndexWrapperSize wrapperOverheadValue
  simp only [List.map_cons, List.map_nil, List.sum_cons, List.sum_nil, List.isEmpty_cons,
    Nat.add_zero, hvv]
  split <;> simp <;> omega

theorem maxIndexOverhead_val (s : Nat) (h0 : 1 ≤ s) (h1 : s * s < 2 ^ 32) :
    maxIndexOverhead s = some (indexOverheadValue s) := by
  rw [maxIndexOverhead_eq s h0 h1]
  congr 1
  have hv := uvarintLen_index_le h1
  have hv2 : uvarintLen (s * s - 1) ≤ uvarintLen (s * s) := uvarintLen_mono _ _ (by omega)
  have hvv : uvarintLen (uvarintLen (s * s)) = 1 := uvarintLen_small (by omega)
  have hvv2 : uvarintLen (uvarintLen (s * s) + uvarintLen (s * s - 1)) = 1 :=
    uvarintLen_small (by omega)
  unfold IndexWrapperSize indexOverheadValue
  simp only [List.map_cons, List.map_nil, List.sum_cons, List.sum_nil, List.isEmpty_cons,
    Nat.add_zero, hvv, hvv2]
  simp
  omega

theorem wrapperOverheadValue_mono (c : AppConsts) {s t : Nat} (h : s ≤ t) :
    wrapperOverheadValue c s ≤ wrapperOverheadValue c t := by
  have hss : s * s ≤ t * t := Nat.mul_le_mul h h
  have hp : s * s * c.ContinuationCompactShareContentSize
      ≤ t * t * c.ContinuationCompactShareContentSize := Nat.mul_le_mul_right _ hss
  have h1 := uvarintLen_mono _ _ hss
  have h2 := uvarintLen_mono _ _ hp
  unfold wrapperOverheadValue
  split <;> split <;> omega

theorem indexOverheadValue_mono {s t : Nat} (h : s ≤ t) :
    indexOverheadValue s ≤ indexOverheadValue t := by
  have hss : s * s ≤ t * t := Nat.mul_le_mul h h
  have h1 := uvarintLen_mono _ _ hss
  have h2 := uvarintLen_mono (t * t - 1) (s * s - 1) (by omega)
  unfold indexOverheadValue
  omega

theorem txBytes_mono {w i w2 i2 : Nat} (hw : w ≤ w2) (hi : i ≤ i2) (tx : parsedTx) :
    txBytes w i tx ≤ txBytes w2 i2 tx := by
  unfold txBytes txBytesStep
  split
  · exact Nat.le_refl _
  · have h1 : i * tx.blobTx.Blobs.length ≤ i2 * tx.blobTx.Blobs.length :=
      Nat.mul_le_mul_right _ hi
    have h2 : tx.blobTx.Tx.length + w + i * tx.blobTx.Blobs.length
        ≤ tx.blobTx.Tx.length + w2 + i2 * tx.blobTx.Blobs.length := by omega
    have h3 := uvarintLen_mono _ _ h2
    simp only [DelimLen, Nat.zero_add]
    omega

theorem sum_map_le_sum_map {α : Type} (l : List α) (f g : α → Nat)
    (h : ∀ x, x ∈ l → f x ≤ g x) : (l.map f).sum ≤ (l.map g).sum := by
  induction l with
  | nil => simp
  | cons a l ih =>
    simp only [List.map_cons, List.sum_cons]
    have h1 := h a (List.mem_cons_self a l)
    have h2 := ih (fun x hx => h x (List.mem_cons_of_mem a hx))
    omega

/-- Claim C10: under a correct configuration, for every square size `s` from
`DefaultMinSquareSize` to `DefaultMaxSquareSize` both calibrators return at `s`
no more than at `DefaultMaxSquareSize`, and so does `estimateTxShares` on every
transaction list. -/
theorem estimateTxShares_le_at_max (c : AppConsts) (hc : c.WellFormed) (s : Nat)
    (hmin : c.DefaultMinSquareSize ≤ s) (hmax : s ≤ c.DefaultMaxSquareSize)
    (txs : List parsedTx) :
    ∃ w w2 i i2 a b,
      maxIndexWrapperOverhead c s = some w ∧
      maxIndexWrapperOverhead c c.DefaultMaxSquareSize = some w2 ∧
      maxIndexOverhead s = some i ∧
      maxIndexOverhead c.DefaultMaxSquareSize = some i2 ∧
      w ≤ w2 ∧ i ≤ i2 ∧
      estimateTxShares c s txs = some a ∧
      estimateTxShares c c.DefaultMaxSquareSize txs = some b ∧ a ≤ b := by
  have h0 : 1 ≤ s := le_trans hc.one_le_min hmin
  have hss : s * s ≤ c.DefaultMaxSquareSize * c.DefaultMaxSquareSize := Nat.mul_le_mul hmax hmax
  have h1 : s * s < 2 ^ 32 := lt_of_le_of_lt hss hc.index_fits
  have h2 : s * s * c.ContinuationCompactShareContentSize < 2 ^ 63 :=
    lt_of_le_of_lt (Nat.mul_le_mul_right _ hss) hc.payload_fits
  have ew := maxIndexWrapperOverhead_val c s h1 h2
  have ew2 := maxIndexWrapperOverhead_val c c.DefaultMaxSquareSize hc.index_fits hc.payload_fits
  have ei := maxIndexOverhead_val s h0 h1
  have ei2 := maxIndexOverhead_val c.DefaultMaxSquareSize hc.one_le_max hc.index_fits
  have hw := wrapperOverheadValue_mono c hmax
  have hi := indexOverheadValue_mono hmax
  refine ⟨_, _, _, _,
    CompactSharesNeeded c
      ((txs.map (txBytes (wrapperOverheadValue c s) (indexOverheadValue s))).sum),
    CompactSharesNeeded c
      ((txs.map (txBytes (wrapperOverheadValue c c.DefaultMaxSquareSize)
        (indexOverheadValue c.DefaultMaxSquareSize))).sum),
    ew, ew2, ei, ei2, hw, hi, ?_, ?_, ?_⟩
  · rw [estimateTxShares_eq_sum, ew, ei]
    rfl
  · rw [estimateTxShares_eq_sum, ew2, ei2]
    rfl
  · apply CompactSharesNeeded_mono
    exact sum_map_le_sum_map txs _ _ (fun tx _ => txBytes_mono hw hi tx)

/-- Witness of C10: the square size 8 against the maximum 128. -/
theorem estimateTxShares_le_at_max_witness :
    scenarioConsts.WellFormed ∧
    ∃ w w2 i i2 a b,
      maxIndexWrapperOverhead scenarioConsts 8 = some w ∧
      maxIndexWrapperOverhead scenarioConsts scenarioConsts.DefaultMaxSquareSize = some w2 ∧
      maxIndexOverhead 8 = some i ∧
      maxIndexOverhead scenarioConsts.DefaultMaxSquareSize = some i2 ∧
      w ≤ w2 ∧ i ≤ i2 ∧
      estimateTxShares scenarioConsts 8 [plainTx 10, oneBlobTx 30 25] = some a ∧
      estimateTxShares scenarioConsts scenarioConsts.DefaultMaxSquareSize
        [plainTx 10, oneBlobTx 30 25] = some b ∧ a ≤ b :=
  ⟨scenarioConsts_wellFormed,
    estimateTxShares_le_at_max scenarioConsts scenarioConsts_wellFormed 8
      (by decide) (by decide) [plainTx 10, oneBlobTx 30 25]⟩

/-! ## The estimate covers the real encoding -/

theorem sum_uvarintLen_le (idx : List Nat) (b : Nat) (h : ∀ x, x ∈ idx → x ≤ b) :
    (idx.map uvarintLen).sum ≤ idx.length * uvarintLen b := by
  induction idx with
  | nil => simp
  | cons a l ih =>
    simp only [List.map_cons, List.sum_cons, List.length_cons]
    have h1 := uvarintLen_mono _ _ (h a (List.mem_cons_self a l))
    have h2 := ih (fun x hx => h x (List.mem_cons_of_mem a hx))
    rw [Nat.succ_mul]
    omega

/-- The envelope of a payload of `p` bytes with share indexes up to `s * s` is
covered by the two overheads at square size `s`, as soon as the varint of `p`
is not much longer than the varint of the synthetic payload of the calibrator. -/
theorem IndexWrapperSize_le (c : AppConsts) (s p : Nat) (idx : List Nat)
    (h1 : s * s < 2 ^ 32) (hidx : ∀ x, x ∈ idx → x ≤ s * s)
    (hp : p = 0 ∨ (0 < s * s * c.ContinuationCompactShareContentSize ∧
      uvarintLen p ≤ uvarintLen (s * s * c.ContinuationCompactShareContentSize)
        + uvarintLen (s * s) + min 2 (uvarintLen (s * s - 1)))) :
    IndexWrapperSize p idx
      ≤ p + wrapperOverheadValue c s + indexOverheadValue s * idx.length := by
  have hv := uvarintLen_index_le h1
  have hv1 := uvarintLen_pos (s * s)
  have hw1 := uvarintLen_pos (s * s - 1)
  have hsum := sum_uvarintLen_le idx (s * s) hidx
  have hvl := uvarintLen_le_div (idx.map uvarintLen).sum
  have hkv : idx.length * uvarintLen (s * s) ≤ idx.length * 5 := Nat.mul_le_mul_left _ hv
  have hB : idx.length = 0 ∨
      uvarintLen (s * s - 1) + (idx.length - 1) ≤ idx.length * uvarintLen (s * s - 1) := by
    rcases Nat.eq_zero_or_pos idx.length with h0 | h0
    · exact Or.inl h0
    · right
      obtain ⟨j, hj⟩ : ∃ j, idx.length = j + 1 := ⟨idx.length - 1, by omega⟩
      rw [hj, Nat.succ_mul]
      have : j * 1 ≤ j * uvarintLen (s * s - 1) := Nat.mul_le_mul_left _ hw1
      omega
  have hexp : indexOverheadValue s * idx.length
      = idx.length * uvarintLen (s * s - 1) + idx.length * uvarintLen (s * s) := by
    unfold indexOverheadValue
    rw [Nat.add_mul, Nat.mul_comm _ idx.length, Nat.mul_comm _ idx.length]
  rw [hexp]
  rw [IndexWrapperSize_eq]
  unfold wrapperOverheadValue
  generalize uvarintLen (s * s) = v at *
  generalize uvarintLen (s * s - 1) = v2 at *
  generalize (idx.map uvarintLen).sum = sm at *
  generalize uvarintLen sm = vs at *
  generalize idx.length * v = kv at *
  generalize idx.length * v2 = kv2 at *
  generalize uvarintLen p = vp at *
  generalize uvarintLen (s * s * c.ContinuationCompactShareContentSize) = vP at *
  generalize s * s * c.ContinuationCompactShareContentSize = P at *
  generalize idx.length = k at *
  clear hexp
  rcases hp with hp | ⟨hP, hp⟩
  · subst hp
    simp only [if_true]
    rcases hB with hB | hB
    · subst hB
      simp only [if_true]
      split <;> omega
    · split <;> split <;> omega
  · have hP0 : P ≠ 0 := by omega
    simp only [hP0, if_false]
    rcases hB with hB | hB
    · subst hB
      simp only [if_true]
      split <;> omega
    · split <;> split <;> omega

theorem encodedTxLen_le_txBytes (c : AppConsts) (s : Nat) (ptx : parsedTx) (idx : List Nat)
    (h1 : s * s < 2 ^ 32) (hlen : idx.length = ptx.blobTx.Blobs.length)
    (hidx : ∀ x, x ∈ idx → x ≤ s * s)
    (hp : ptx.blobTx.Tx.length = 0 ∨ (0 < s * s * c.ContinuationCompactShareContentSize ∧
      uvarintLen ptx.blobTx.Tx.length
        ≤ uvarintLen (s * s * c.ContinuationCompactShareContentSize)
          + uvarintLen (s * s) + min 2 (uvarintLen (s * s - 1)))) :
    encodedTxLen ptx idx ≤ txBytes (wrapperOverheadValue c s) (indexOverheadValue s) ptx := by
  unfold encodedTxLen txBytes txBytesStep
  split
  · simp
  · have h := IndexWrapperSize_le c s ptx.blobTx.Tx.length idx h1 hidx hp
    rw [hlen] at h
    have h3 := uvarintLen_mono _ _ h
    simp only [DelimLen, Nat.zero_add]
    omega

/-- Claim C2: with the default maximum square size 128 and a continuation
share content of at least 128 bytes, for every transaction list (the wrapped
bytes of a blob transaction being shorter than `2 ^ 63`) whose blob
transactions get one share index per blob, none above `128 * 128`, the compact
shares that the real encoding needs are at most `estimateTxShares` at the
maximum square size; the same holds after adding the blob shares. -/
theorem estimateTxShares_covers_encoding (c : AppConsts) (hc : c.WellFormed)
    (hmax : c.DefaultMaxSquareSize = 128)
    (hcont : 128 ≤ c.ContinuationCompactShareContentSize) (B : BlobTx → Nat)
    (txs : List (parsedTx × List Nat))
    (hidx : ∀ p, p ∈ txs → p.2.length = p.1.blobTx.Blobs.length ∧
      ∀ x, x ∈ p.2 → x ≤ c.DefaultMaxSquareSize * c.DefaultMaxSquareSize)
    (hlen : ∀ p, p ∈ txs → p.1.blobTx.Tx.length < 2 ^ 63) :
    ∃ e, estimateTxShares c c.DefaultMaxSquareSize (txs.map Prod.fst) = some e ∧
      actualTxShares c txs ≤ e ∧
      actualTxShares c txs + blobSharesUsed B (txs.map Prod.fst)
        ≤ e + blobSharesUsed B (txs.map Prod.fst) := by
  have ew := maxIndexWrapperOverhead_val c c.DefaultMaxSquareSize hc.index_fits hc.payload_fits
  have ei := maxIndexOverhead_val c.DefaultMaxSquareSize hc.one_le_max hc.index_fits
  have hest : estimateTxShares c c.DefaultMaxSquareSize (txs.map Prod.fst)
      = some (CompactSharesNeeded c
          (((txs.map Prod.fst).map (txBytes (wrapperOverheadValue c c.DefaultMaxSquareSize)
            (indexOverheadValue c.DefaultMaxSquareSize))).sum)) := by
    rw [estimateTxShares_eq_sum, ew, ei]
    rfl
  have hle : actualTxShares c txs ≤ CompactSharesNeeded c
      (((txs.map Prod.fst).map (txBytes (wrapperOverheadValue c c.DefaultMaxSquareSize)
        (indexOverheadValue c.DefaultMaxSquareSize))).sum) := by
    unfold actualTxShares
    apply CompactSharesNeeded_mono
    rw [List.map_map]
    apply sum_map_le_sum_map
    intro p hp
    have hpay := hc.payload_fits
    rw [hmax] at hpay ⊢
    have hp1 : 0 < 128 * 128 * c.ContinuationCompactShareContentSize := by omega
    have hv : uvarintLen (128 * 128) = 3 := by decide
    have hv2 : uvarintLen (128 * 128 - 1) = 2 := by decide
    have hvP : 4 ≤ uvarintLen (128 * 128 * c.ContinuationCompactShareContentSize) :=
      uvarintLen_gt_of_le 3 _ (by norm_num; omega)
    have hvp : uvarintLen p.1.blobTx.Tx.length ≤ 9 :=
      uvarintLen_le_of_lt 9 _ (by norm_num) (by have := hlen p hp; norm_num; omega)
    have hi := hidx p hp
    rw [hmax] at hi
    exact encodedTxLen_le_txBytes c 128 p.1 p.2 (by norm_num) hi.1 hi.2
      (Or.inr ⟨hp1, by rw [hv, hv2]; omega⟩)
  exact ⟨_, hest, hle, by omega⟩

/-- Witness of C2: a plain transaction and a blob transaction whose blob
starts at the largest share index. -/
theorem estimateTxShares_covers_encoding_witness :
    ∃ e, estimateTxShares scenarioConsts scenarioConsts.DefaultMaxSquareSize
        ([(plainTx 10, []), (oneBlobTx 30 25, [16384])].map Prod.fst) = some e ∧
      actualTxShares scenarioConsts [(plainTx 10, []), (oneBlobTx 30 25, [16384])] ≤ e ∧
      actualTxShares scenarioConsts [(plainTx 10, []), (oneBlobTx 30 25, [16384])]
          + blobSharesUsed (BlobTxSharesUsed 478 482)
              ([(plainTx 10, []), (oneBlobTx 30 25, [16384])].map Prod.fst)
        ≤ e + blobSharesUsed (BlobTxSharesUsed 478 482)
              ([(plainTx 10, []), (oneBlobTx 30 25, [16384])].map Prod.fst) :=
  estimateTxShares_covers_encoding scenarioConsts scenarioConsts_wellFormed rfl (by decide)
    (BlobTxSharesUsed 478 482) [(plainTx 10, []), (oneBlobTx 30 25, [16384])]
    (by decide) (by decide)

/-! ## Evaluation of the model on sample inputs -/

set_option maxRecDepth 100000 in
/-- The computed `minSize` on small totals, with and without fusion. -/
theorem minSize_samples :
    minSize false 2 = 3 ∧ minSize true 2 = 3 ∧ minSize false 100 = 13 ∧
      minSize true 100 = 13 ∧ minSize false 10080 = 128 ∧ minSize false 10081 = 129 := by
  decide

set_option maxRecDepth 100000 in
/-- The estimator on two blob transactions: three shares in total give a
square of size four. -/
theorem estimateSquareSize_sample :
    estimateSquareSize scenarioConsts false (BlobTxSharesUsed 478 482)
      [oneBlobTx 30 25, oneBlobTx 40 60] = some (4, 1) := by
  decide

/-! ## The concrete scenarios -/

theorem scenarioConsts64_wellFormed : scenarioConsts64.WellFormed where
  min_pow := ⟨0, rfl⟩
  max_pow := ⟨6, rfl⟩
  min_le_max := by decide
  index_fits := by decide
  payload_fits := by decide

/-- The transaction bytes of a list of plain transactions. -/
theorem sum_txBytes_plain (w i : Nat) (txs : List parsedTx)
    (hplain : ∀ tx, tx ∈ txs → tx.normalTx.length ≠ 0) :
    (txs.map (txBytes w i)).sum
      = (txs.map (fun tx => tx.normalTx.length + DelimLen tx.normalTx.length)).sum := by
  congr 1
  apply List.map_congr_left
  intro tx htx
  unfold txBytes txBytesStep
  rw [if_pos (hplain tx htx)]
  simp

/-- A list of plain transactions uses no blob shares. -/
theorem blobSharesUsed_plain (B : BlobTx → Nat) (txs : List parsedTx)
    (hplain : ∀ tx, tx ∈ txs → tx.normalTx.length ≠ 0) : blobSharesUsed B txs = 0 := by
  rw [blobSharesUsed_eq_sum]
  apply List.sum_eq_zero
  intro x hx
  obtain ⟨tx, htx, rfl⟩ := List.mem_map.mp hx
  unfold blobSharesOf
  rw [if_pos (hplain tx htx)]

/-- A non-empty list of plain transactions has at least one byte. -/
theorem sum_plain_pos (txs : List parsedTx) (hne : txs ≠ [])
    (hplain : ∀ tx, tx ∈ txs → tx.normalTx.length ≠ 0) :
    0 < (txs.map (fun tx => tx.normalTx.length + DelimLen tx.normalTx.length)).sum := by
  cases txs with
  | nil => exact absurd rfl hne
  | cons tx txs =>
    have := hplain tx (List.mem_cons_self tx txs)
    simp only [List.map_cons, List.sum_cons]
    omega

/-- Plain transactions that fit the first compact share give
`(DefaultMinSquareSize, 1)`. -/
theorem estimate_plain_one_share (c : AppConsts) (hc : c.WellFormed) (fma : Bool)
    (B : BlobTx → Nat) (txs : List parsedTx) (hne : txs ≠ [])
    (hplain : ∀ tx, tx ∈ txs → tx.normalTx.length ≠ 0)
    (hfit : (txs.map (fun tx => tx.normalTx.length + DelimLen tx.normalTx.length)).sum
      ≤ c.FirstCompactShareContentSize) :
    estimateTxShares c c.DefaultMaxSquareSize txs = some 1 ∧
      estimateSquareSize c fma B txs = some (c.DefaultMinSquareSize, 1) := by
  obtain ⟨w, i, _, _, h⟩ :=
    estimateTxShares_eq_some c hc c.DefaultMaxSquareSize hc.one_le_max (Nat.le_refl _) txs
  have hpos := sum_plain_pos txs hne hplain
  have h1 : estimateTxShares c c.DefaultMaxSquareSize txs = some 1 := by
    rw [h, sum_txBytes_plain w i txs hplain]
    unfold CompactSharesNeeded
    rw [if_neg (by omega), if_pos hfit]
  refine ⟨h1, ?_⟩
  apply estimateSquareSize_fast c fma B txs 1 h1
  rw [blobSharesUsed_plain B txs hplain]

/-- Claim C11: under a correct configuration (as with the bounds 1 and 128), a
single plain transaction of ten bytes gives one compact share, as soon as the
eleven delimited bytes fit the first compact share, and `estimateSquareSize`
returns `(DefaultMinSquareSize, 1)`; so does every list of at least one
transaction, all plain and not empty, whose delimited bytes fit the first
compact share. -/
theorem estimate_plain_scenario (c : AppConsts) (hc : c.WellFormed) (fma : Bool)
    (B : BlobTx → Nat) :
    (∀ tx : parsedTx, tx.normalTx.length = 10 → 11 ≤ c.FirstCompactShareContentSize →
        estimateTxShares c c.DefaultMaxSquareSize [tx] = some 1 ∧
        estimateSquareSize c fma B [tx] = some (c.DefaultMinSquareSize, 1)) ∧
      (∀ txs : List parsedTx, txs ≠ [] →
        (∀ tx, tx ∈ txs → tx.normalTx.length ≠ 0) →
        (txs.map (fun tx => tx.normalTx.length + DelimLen tx.normalTx.length)).sum
          ≤ c.FirstCompactShareContentSize →
        estimateTxShares c c.DefaultMaxSquareSize txs = some 1 ∧
        estimateSquareSize c fma B txs = some (c.DefaultMinSquareSize, 1)) := by
  refine ⟨?_, estimate_plain_one_share c hc fma B⟩
  intro tx hlen hfirst
  apply estimate_plain_one_share c hc fma B [tx] (by simp)
  · intro t ht
    rw [List.mem_singleton] at ht
    subst ht
    omega
  · have hd : DelimLen 10 = 1 := uvarintLen_small (by norm_num)
    simp only [List.map_cons, List.map_nil, List.sum_cons, List.sum_nil, hlen, hd]
    omega

/-- Witness of C11: the bounds 1 and 128 and one plain transaction of ten
bytes give `(1, 1)`. -/
theorem estimate_plain_scenario_witness :
    scenarioConsts.WellFormed ∧
    scenarioConsts.DefaultMinSquareSize = 1 ∧ scenarioConsts.DefaultMaxSquareSize = 128 ∧
    estimateTxShares scenarioConsts 128 [plainTx 10] = some 1 ∧
    estimateSquareSize scenarioConsts false (BlobTxSharesUsed 478 482) [plainTx 10]
      = some (1, 1) :=
  ⟨scenarioConsts_wellFormed, rfl, rfl,
    (estimate_plain_scenario scenarioConsts scenarioConsts_wellFormed false
      (BlobTxSharesUsed 478 482)).1 (plainTx 10) (by decide) (by decide)⟩

/-- The clamped square size is a power of two. -/
theorem clamp_pow2 (c : AppConsts) (hc : c.WellFormed) (x : Nat) :
    ∃ k, max c.DefaultMinSquareSize (min (RoundUpPowerOfTwo x) c.DefaultMaxSquareSize)
      = 2 ^ k := by
  have hmm := hc.min_le_max
  obtain ⟨k, hk, _, _⟩ := RoundUpPowerOfTwo_spec x
  rcases Nat.le_total (RoundUpPowerOfTwo x) c.DefaultMaxSquareSize with h | h
  · rw [Nat.min_eq_left h]
    rcases Nat.le_total c.DefaultMinSquareSize (RoundUpPowerOfTwo x) with h2 | h2
    · rw [Nat.max_eq_right h2]
      exact ⟨k, hk⟩
    · rw [Nat.max_eq_left h2]
      exact hc.min_pow
  · rw [Nat.min_eq_right h, Nat.max_eq_right hmm]
    exact hc.max_pow

/-- A total above one asks for a side of at least three. -/
theorem three_le_minSide {t : Nat} (ht : 1 < t) : 3 ≤ minSide t := by
  by_contra h
  have h1 : minSide t ≤ 2 := by omega
  have h2 := Nat.mul_le_mul h1 h1
  have := (minSide_spec t).1
  omega

/-- Claim C12: under a correct configuration whose minimum square size is at
most two and below the maximum (as for the bounds 1 and 64, or 1 and 128),
every transaction list whose transaction shares plus blob shares exceed one
gets a square size that is a power of two and strictly greater than
`DefaultMinSquareSize`, and the start of the non-reserved namespaces is the
transaction share count `estimateTxShares` at `DefaultMaxSquareSize`. -/
theorem estimateSquareSize_above_min (c : AppConsts) (hc : c.WellFormed)
    (hmin : c.DefaultMinSquareSize ≤ 2)
    (hlt : c.DefaultMinSquareSize < c.DefaultMaxSquareSize) (fma : Bool)
    (B : BlobTx → Nat) (txs : List parsedTx) (n : Nat)
    (hn : estimateTxShares c c.DefaultMaxSquareSize txs = some n)
    (ht : 1 < n + blobSharesUsed B txs) :
    ∃ squareSize, estimateSquareSize c fma B txs = some (squareSize, n) ∧
      (∃ k, squareSize = 2 ^ k) ∧ c.DefaultMinSquareSize < squareSize := by
  rw [estimateSquareSize_of_some c fma B txs n hn hc.max_lt, if_neg (by omega)]
  refine ⟨_, rfl, clamp_pow2 c hc _, ?_⟩
  have h1 := three_le_minSide ht
  have h2 := RoundUpPowerOfTwo_ge (minSide (n + blobSharesUsed B txs))
  omega

/-- The blob shares of `k` copies of a transaction. -/
theorem blobSharesUsed_replicate (B : BlobTx → Nat) (k : Nat) (tx : parsedTx) :
    blobSharesUsed B (List.replicate k tx) = k * blobSharesOf B tx := by
  rw [blobSharesUsed_eq_sum]
  simp

/-- The transaction shares of `k` copies of a transaction. -/
theorem estimateTxShares_replicate (c : AppConsts) (s k : Nat) (tx : parsedTx) (w i : Nat)
    (hw : maxIndexWrapperOverhead c s = some w) (hi : maxIndexOverhead s = some i) :
    estimateTxShares c s (List.replicate k tx)
      = some (CompactSharesNeeded c (k * txBytes w i tx)) := by
  rw [estimateTxShares_eq_sum, hw, hi]
  simp

theorem txBytes_oneBlobTx (w i n m : Nat) :
    txBytes w i (oneBlobTx n m) = n + w + i * 1 + DelimLen (n + w + i * 1) := by
  simp [txBytes, txBytesStep, oneBlobTx]

theorem blobSharesOf_oneBlobTx (f g n m : Nat) :
    blobSharesOf (BlobTxSharesUsed f g) (oneBlobTx n m) = SparseSharesNeeded f g m := by
  simp [blobSharesOf, oneBlobTx, BlobTxSharesUsed]

theorem hundredBlobs_txShares :
    estimateTxShares scenarioConsts64 scenarioConsts64.DefaultMaxSquareSize
      (List.replicate 100 (oneBlobTx 100 256)) = some 25 := by
  rw [estimateTxShares_replicate scenarioConsts64 _ 100 _ 14 4 (by decide) (by decide),
    txBytes_oneBlobTx]
  decide

theorem hundredBlobs_blobShares :
    blobSharesUsed (BlobTxSharesUsed 478 482) (List.replicate 100 (oneBlobTx 100 256))
      = 100 := by
  rw [blobSharesUsed_replicate, blobSharesOf_oneBlobTx]
  decide

/-- Witness of C12: one hundred blob transactions, each with one blob of 256
bytes, under the bounds 1 and 64. -/
theorem estimateSquareSize_above_min_witness :
    scenarioConsts64.WellFormed ∧
    ∃ squareSize,
      estimateSquareSize scenarioConsts64 false (BlobTxSharesUsed 478 482)
        (List.replicate 100 (oneBlobTx 100 256)) = some (squareSize, 25) ∧
      (∃ k, squareSize = 2 ^ k) ∧ scenarioConsts64.DefaultMinSquareSize < squareSize :=
  ⟨scenarioConsts64_wellFormed,
    estimateSquareSize_above_min scenarioConsts64 scenarioConsts64_wellFormed
      (by decide) (by decide) false (BlobTxSharesUsed 478 482)
      (List.replicate 100 (oneBlobTx 100 256)) 25 hundredBlobs_txShares
      (by rw [hundredBlobs_blobShares]; decide)⟩

set_option maxRecDepth 100000 in
theorem hundredBlobs_value :
    estimateSquareSize scenarioConsts64 false (BlobTxSharesUsed 478 482)
        (List.replicate 100 (oneBlobTx 100 256)) = some (16, 25) := by
  rw [estimateSquareSize, hundredBlobs_txShares]
  simp only [hundredBlobs_blobShares]
  decide

/-! ## The overhead bound of the envelope -/

/-- Claim C13: under a correct configuration, for every square size `s` from
`DefaultMinSquareSize` to `DefaultMaxSquareSize`, every payload of at most
`s * s * ContinuationCompactShareContentSize` bytes and every list of share
indexes, each at most `s * s`, both calibrators return at `s` and the envelope
is no longer than the payload plus `maxIndexWrapperOverhead s` plus
`maxIndexOverhead s` for each index. -/
theorem envelope_overhead_bound (c : AppConsts) (hc : c.WellFormed) (s : Nat)
    (hmin : c.DefaultMinSquareSize ≤ s) (hmax : s ≤ c.DefaultMaxSquareSize)
    (payloadLen : Nat) (indices : List Nat)
    (hp : payloadLen ≤ s * s * c.ContinuationCompactShareContentSize)
    (hidx : ∀ x, x ∈ indices → x ≤ s * s) :
    ∃ w i, maxIndexWrapperOverhead c s = some w ∧ maxIndexOverhead s = some i ∧
      IndexWrapperSize payloadLen indices ≤ payloadLen + w + indices.length * i := by
  have h0 : 1 ≤ s := le_trans hc.one_le_min hmin
  have hss : s * s ≤ c.DefaultMaxSquareSize * c.DefaultMaxSquareSize := Nat.mul_le_mul hmax hmax
  have h1 : s * s < 2 ^ 32 := lt_of_le_of_lt hss hc.index_fits
  have h2 : s * s * c.ContinuationCompactShareContentSize < 2 ^ 63 :=
    lt_of_le_of_lt (Nat.mul_le_mul_right _ hss) hc.payload_fits
  refine ⟨_, _, maxIndexWrapperOverhead_val c s h1 h2, maxIndexOverhead_val s h0 h1, ?_⟩
  rw [Nat.mul_comm indices.length]
  apply IndexWrapperSize_le c s payloadLen indices h1 hidx
  rcases Nat.eq_zero_or_pos payloadLen with hz | hpos
  · exact Or.inl hz
  · right
    refine ⟨by omega, ?_⟩
    have := uvarintLen_mono _ _ hp
    omega

/-- Witness of C13: a payload of 300 bytes with three share indexes at the
largest square size. -/
theorem envelope_overhead_bound_witness :
    scenarioConsts.WellFormed ∧
    ∃ w i, maxIndexWrapperOverhead scenarioConsts 128 = some w ∧
      maxIndexOverhead 128 = some i ∧
      IndexWrapperSize 300 [16384, 16384, 700] ≤ 300 + w + [16384, 16384, 700].length * i :=
  ⟨scenarioConsts_wellFormed,
    envelope_overhead_bound scenarioConsts scenarioConsts_wellFormed 128
      (by decide) (by decide) 300 [16384, 16384, 700] (by decide) (by decide)⟩

/-! ## The second probe of `maxIndexOverhead` -/

/-- A square lies on one side of two consecutive squares. -/
theorem sq_le_or_ge (s a : Nat) : s * s ≤ a * a ∨ (a + 1) * (a + 1) ≤ s * s := by
  rcases Nat.lt_or_ge a s with h | h
  · exact Or.inr (Nat.mul_le_mul h h)
  · exact Or.inl (Nat.mul_le_mul h h)

/-- Below `2 ^ 32` the only squares that are powers of 128 with a positive
exponent are those of 128 and of 16384. -/
theorem sq_eq_pow_128 (s k : Nat) (hk : 1 ≤ k) (h1 : s * s < 2 ^ 32) (h : s * s = 128 ^ k) :
    s = 128 ∨ s = 16384 := by
  have hk5 : k < 5 := by
    by_contra hc
    have : 128 ^ 5 ≤ 128 ^ k := Nat.pow_le_pow_right (by norm_num) (by omega)
    omega
  interval_cases k
  · rcases sq_le_or_ge s 11 with h2 | h2 <;> omega
  · left
    rcases sq_le_or_ge s 127 with h2 | h2
    · omega
    · rcases sq_le_or_ge s 128 with h3 | h3
      · by_contra hne
        rcases Nat.lt_or_ge s 128 with h4 | h4
        · have := Nat.mul_le_mul (Nat.le_of_lt_succ h4) (Nat.le_of_lt_succ h4)
          omega
        · have h5 : 129 ≤ s := by omega
          have := Nat.mul_le_mul h5 h5
          omega
      · omega
  · rcases sq_le_or_ge s 1448 with h2 | h2 <;> omega
  · right
    by_contra hne
    rcases Nat.lt_or_ge s 16384 with h4 | h4
    · have := Nat.mul_le_mul (Nat.le_of_lt_succ h4) (Nat.le_of_lt_succ h4)
      omega
    · have h5 : 16385 ≤ s := by omega
      have := Nat.mul_le_mul h5 h5
      omega

/-- The varint of `s * s - 1` is as long as that of `s * s`, except at the
squares of 128 and of 16384. -/
theorem uvarintLen_pred_sq (s : Nat) (h1 : s * s < 2 ^ 32) (hs : s ≠ 128)
    (hs2 : s ≠ 16384) : uvarintLen (s * s - 1) = uvarintLen (s * s) := by
  apply Nat.le_antisymm (uvarintLen_mono _ _ (by omega))
  have hk := uvarintLen_pos (s * s - 1)
  by_contra hlt
  have h2 : ¬ s * s < 128 ^ uvarintLen (s * s - 1) := fun h =>
    hlt (uvarintLen_le_of_lt _ _ hk h)
  have h3 : ¬ 128 ^ uvarintLen (s * s - 1) ≤ s * s - 1 := fun h => by
    have := uvarintLen_gt_of_le _ _ h
    omega
  have hp : 0 < 128 ^ uvarintLen (s * s - 1) := Nat.pow_pos (by norm_num)
  have heq : s * s = 128 ^ uvarintLen (s * s - 1) := by omega
  rcases sq_eq_pow_128 s _ hk h1 heq with h | h
  · exact hs h
  · exact hs2 h

/-- The varint of `s * s` is at most one byte longer than that of `s * s - 1`. -/
theorem uvarintLen_sq_le_succ (s : Nat) : uvarintLen (s * s) ≤ uvarintLen (s * s - 1) + 1 := by
  rw [uvarintLen_eq (s * s)]
  split
  · have := uvarintLen_mono (s * s - 1) (s * s / 128) (by omega)
    omega
  · have := uvarintLen_pos (s * s - 1)
    omega

/-- The cost of a second share index `x` after the index `s * s` is the length
of its varint. -/
theorem second_index_cost (s x : Nat) (h1 : s * s < 2 ^ 32) (hx : x ≤ s * s) :
    IndexWrapperSize 1 [s * s, x] = IndexWrapperSize 1 [s * s] + uvarintLen x := by
  have hv := uvarintLen_index_le h1
  have hvx := uvarintLen_mono _ _ hx
  have hvv : uvarintLen (uvarintLen (s * s)) = 1 := uvarintLen_small (by omega)
  have hvv2 : uvarintLen (uvarintLen (s * s) + uvarintLen x) = 1 := uvarintLen_small (by omega)
  rw [IndexWrapperSize_eq, IndexWrapperSize_eq]
  simp only [List.map_cons, List.map_nil, List.sum_cons, List.sum_nil, List.length_cons,
    List.length_nil, Nat.add_zero, hvv, hvv2]
  simp
  omega

/-- The varint of `s * s - 1` is as long as that of `s * s` exactly when `s` is
neither 128 nor 16384. -/
theorem uvarintLen_pred_sq_iff (s : Nat) (h1 : s * s < 2 ^ 32) :
    uvarintLen (s * s - 1) = uvarintLen (s * s) ↔ s ≠ 128 ∧ s ≠ 16384 := by
  constructor
  · intro h
    constructor
    · intro hs
      subst hs
      revert h
      decide
    · intro hs
      subst hs
      revert h
      decide
  · intro h
    exact uvarintLen_pred_sq s h1 h.1 h.2

/-- A varint grows by at most one byte when less than 128 is added to a
positive number. -/
theorem uvarintLen_add_le (a b : Nat) (ha : 1 ≤ a) (hb : b < 128) :
    uvarintLen (a + b) ≤ uvarintLen a + 1 := by
  have h1 : uvarintLen (a + b) ≤ uvarintLen (128 * a) := uvarintLen_mono _ _ (by omega)
  have h2 : uvarintLen (128 * a) = uvarintLen a + 1 := by
    rw [uvarintLen_eq (128 * a), if_pos (by omega), Nat.mul_div_cancel_left a (by norm_num)]
  omega

theorem packedLen_append (idx : List Nat) (x : Nat) :
    packedLen (idx ++ [x]) = packedLen idx + uvarintLen x := by
  simp [packedLen]

theorem packedLen_pos {idx : List Nat} (h : idx ≠ []) : 1 ≤ packedLen idx := by
  cases idx with
  | nil => exact absurd rfl h
  | cons a l =>
    have := uvarintLen_pos a
    simp only [packedLen, List.map_cons, List.sum_cons]
    omega

theorem packedLen_replicate_zero (n : Nat) : packedLen (List.replicate n 0) = n := by
  have h0 : uvarintLen 0 = 1 := uvarintLen_small (by norm_num)
  simp [packedLen, h0]

/-- The first share index brings the tag and the length prefix of the index
field with it. -/
theorem indexCost_nil (p x : Nat) (hx : x < 2 ^ 64) : indexCost p [] x = uvarintLen x + 2 := by
  have hv : uvarintLen x ≤ 10 := uvarintLen_le_of_lt 10 _ (by norm_num) (by norm_num; omega)
  have hvv : uvarintLen (uvarintLen x) = 1 := uvarintLen_small (by omega)
  unfold indexCost
  rw [IndexWrapperSize_eq, IndexWrapperSize_eq]
  simp only [List.nil_append, List.map_cons, List.map_nil, List.sum_cons, List.sum_nil,
    List.length_cons, List.length_nil, Nat.add_zero, hvv]
  simp
  omega

/-- A further share index costs its varint and the growth of the length prefix
of the packed indexes. -/
theorem indexCost_cons (p : Nat) (idx : List Nat) (x : Nat) (h : idx ≠ []) :
    indexCost p idx x
      = uvarintLen x
        + (uvarintLen (packedLen idx + uvarintLen x) - uvarintLen (packedLen idx)) := by
  have hm : uvarintLen (packedLen idx) ≤ uvarintLen (packedLen idx + uvarintLen x) :=
    uvarintLen_mono _ _ (by omega)
  have hl : idx.length ≠ 0 := fun hl => h (List.length_eq_zero.mp hl)
  unfold indexCost
  rw [IndexWrapperSize_eq, IndexWrapperSize_eq]
  have e1 : ((idx ++ [x]).map uvarintLen).sum = packedLen idx + uvarintLen x :=
    packedLen_append idx x
  have e2 : (idx.map uvarintLen).sum = packedLen idx := rfl
  have hl2 : (idx ++ [x]).length ≠ 0 := by simp
  rw [e1, e2, if_neg hl, if_neg hl2]
  split_ifs <;> omega

/-- Claim C14 as amended: under a correct configuration, for every square size
`s` from `DefaultMinSquareSize` to `DefaultMaxSquareSize`, `maxIndexOverhead s`
returns `wtx2 - wtx + maxIndexLen`, where `maxIndexLen` is the varint length of
`s * s` and the difference `wtx2 - wtx` of the two probes is the cost of the
probe index `s * s - 1` after the index `s * s`, which is the varint length of
`s * s - 1`.  That length is the one of `s * s` exactly when `s` is neither 128
nor 16384, and one byte less at these two.  An index `x ≤ s * s` added to a
list that holds an index already costs the varint length of `x` plus the
growth, of no byte or of one, of the varint that holds the length of the packed
indexes (the probe itself does not lengthen it).  Hence the cost is at most
the varint length of `s * s` plus one, a bound that some list of indexes up to
`s * s` reaches for every payload; it is at most the difference of the probes
when `s` is neither 128 nor 16384 and the added index leaves the length prefix
as long as it was; and it is at most the value that `maxIndexOverhead s`
returns in every case.  The first index of a list costs the varint length of
`x` plus two. -/
theorem maxIndexOverhead_probe (c : AppConsts) (hc : c.WellFormed) (s : Nat)
    (hmin : c.DefaultMinSquareSize ≤ s) (hmax : s ≤ c.DefaultMaxSquareSize) :
    ∃ maxIndexLen wtx wtx2,
      PutUvarint MaxVarintLen32 (s * s) = some maxIndexLen ∧
      MarshalIndexWrapperLen 1 [s * s] = some wtx ∧
      MarshalIndexWrapperLen 1 [s * s, s * s - 1] = some wtx2 ∧
      maxIndexOverhead s = some (wtx2 - wtx + maxIndexLen) ∧
      maxIndexLen = uvarintLen (s * s) ∧
      wtx2 - wtx = indexCost 1 [s * s] (s * s - 1) ∧
      wtx2 - wtx = uvarintLen (s * s - 1) ∧
      (uvarintLen (s * s - 1) = uvarintLen (s * s) ↔ s ≠ 128 ∧ s ≠ 16384) ∧
      (uvarintLen (s * s - 1) + 1 = uvarintLen (s * s) ↔ s = 128 ∨ s = 16384) ∧
      uvarintLen (packedLen [s * s] + uvarintLen (s * s - 1))
        = uvarintLen (packedLen [s * s]) ∧
      (∀ p idx x, idx ≠ [] → x ≤ s * s →
        indexCost p idx x
          = uvarintLen x
            + (uvarintLen (packedLen idx + uvarintLen x) - uvarintLen (packedLen idx)) ∧
        uvarintLen x ≤ uvarintLen (s * s) ∧
        uvarintLen (packedLen idx) ≤ uvarintLen (packedLen idx + uvarintLen x) ∧
        uvarintLen (packedLen idx + uvarintLen x) ≤ uvarintLen (packedLen idx) + 1 ∧
        indexCost p idx x ≤ uvarintLen (s * s) + 1 ∧
        indexCost p idx x ≤ wtx2 - wtx + maxIndexLen ∧
        (s ≠ 128 → s ≠ 16384 →
          uvarintLen (packedLen idx + uvarintLen x) = uvarintLen (packedLen idx) →
          indexCost p idx x ≤ wtx2 - wtx)) ∧
      (∃ idx x, idx ≠ [] ∧ (∀ y ∈ idx, y ≤ s * s) ∧ x ≤ s * s ∧
        ∀ p, indexCost p idx x = uvarintLen (s * s) + 1) ∧
      (∀ p x, x ≤ s * s → indexCost p [] x = uvarintLen x + 2) := by
  have h0 : 1 ≤ s := le_trans hc.one_le_min hmin
  have h1 : s * s < 2 ^ 32 := lt_of_le_of_lt (Nat.mul_le_mul hmax hmax) hc.index_fits
  have hv := uvarintLen_index_le h1
  have hpos := uvarintLen_pos (s * s - 1)
  have hle := uvarintLen_sq_le_succ s
  have hge : uvarintLen (s * s - 1) ≤ uvarintLen (s * s) := uvarintLen_mono _ _ (by omega)
  have hiff := uvarintLen_pred_sq_iff s h1
  have hprobe : indexCost 1 [s * s] (s * s - 1) = uvarintLen (s * s - 1) := by
    show IndexWrapperSize 1 [s * s, s * s - 1] - IndexWrapperSize 1 [s * s] = _
    rw [second_index_cost s _ h1 (by omega)]
    omega
  refine ⟨uvarintLen (s * s), IndexWrapperSize 1 [s * s], IndexWrapperSize 1 [s * s, s * s - 1],
    ?_, rfl, rfl, maxIndexOverhead_eq s h0 h1, rfl, rfl, hprobe, hiff, ?_, ?_, ?_, ?_, ?_⟩
  · unfold PutUvarint MaxVarintLen32
    rw [if_pos hv]
  · constructor
    · intro h
      by_contra hcon
      have := hiff.mpr ⟨fun e => hcon (Or.inl e), fun e => hcon (Or.inr e)⟩
      omega
    · intro h
      have hne : ¬ uvarintLen (s * s - 1) = uvarintLen (s * s) := fun e => by
        have := hiff.mp e
        omega
      omega
  · have e1 : packedLen [s * s] = uvarintLen (s * s) := by simp [packedLen]
    rw [e1, uvarintLen_small (by omega), uvarintLen_small (by omega)]
  · intro p idx x hne hx
    have hvx : uvarintLen x ≤ uvarintLen (s * s) := uvarintLen_mono _ _ hx
    have hm : uvarintLen (packedLen idx) ≤ uvarintLen (packedLen idx + uvarintLen x) :=
      uvarintLen_mono _ _ (by omega)
    have hg := uvarintLen_add_le (packedLen idx) (uvarintLen x) (packedLen_pos hne) (by omega)
    have hcost := indexCost_cons p idx x hne
    have hp : IndexWrapperSize 1 [s * s, s * s - 1] - IndexWrapperSize 1 [s * s]
        = uvarintLen (s * s - 1) := hprobe
    refine ⟨hcost, hvx, hm, hg, by omega, by omega, ?_⟩
    intro hs hs2 hsame
    have := hiff.mpr ⟨hs, hs2⟩
    omega
  · refine ⟨List.replicate 127 0, s * s, by decide, ?_, Nat.le_refl _, ?_⟩
    · intro y hy
      rw [List.eq_of_mem_replicate hy]
      exact Nat.zero_le _
    · intro p
      rw [indexCost_cons p _ _ (by decide), packedLen_replicate_zero]
      have e1 : uvarintLen 127 = 1 := uvarintLen_small (by norm_num)
      have hpv := uvarintLen_pos (s * s)
      have e2 : uvarintLen (127 + uvarintLen (s * s)) = 2 := by
        rw [uvarintLen_eq, if_pos (by omega)]
        have : (127 + uvarintLen (s * s)) / 128 = 1 := by omega
        rw [this, uvarintLen_small (by norm_num)]
      rw [e1, e2]
  · intro p x hx
    exact indexCost_nil p x (by omega)

/-- Witness of C14 as amended: the square size 64 under the bounds 1 and 128,
where the probe 4095 is as wide as 4096, the difference of the probes is two,
`maxIndexOverhead` returns four and no index added to a list that holds one
costs more than three. -/
theorem maxIndexOverhead_probe_witness :
    scenarioConsts.WellFormed ∧
      maxIndexOverhead 64 = some 4 ∧ indexCost 1 [64 * 64] (64 * 64 - 1) = 2 ∧
      uvarintLen (64 * 64 - 1) = uvarintLen (64 * 64) ∧
      ∀ p idx x, idx ≠ [] → x ≤ 64 * 64 → indexCost p idx x ≤ 3 := by
  obtain ⟨m, w, w2, _, _, _, h4, h5, h6, h7, h8, _, _, h10, _, _⟩ :=
    maxIndexOverhead_probe scenarioConsts scenarioConsts_wellFormed 64 (by decide) (by decide)
  have e1 : uvarintLen (64 * 64) = 2 := by decide
  have e2 : uvarintLen (64 * 64 - 1) = 2 := by decide
  rw [e1] at h5
  rw [e2] at h7
  rw [h5, h7] at h4
  refine ⟨scenarioConsts_wellFormed, h4, by rw [← h6, h7], h8.mpr (by decide), ?_⟩
  intro p idx x hne hx
  have h := h10 p idx x hne hx
  rw [e1] at h
  exact h.2.2.2.2.1

/-- Counterexample to C14, at two powers of two within the default bounds 1
and 128.  At the square size 128 the second probe index `128 * 128 - 1` takes
two varint bytes and `128 * 128` three, so the difference of the two probes is
two, while a second index of value `128 * 128` costs three and the forty-third
such index costs four.  At the square size 64 the probe index is as wide as
`64 * 64` and the difference of the probes is two, yet the sixty-fourth index
of value `64 * 64` costs three, because the varint of the packed length grows
from one byte to two; the first index of an envelope costs four.  The square
of 16384 is one more square whose predecessor has a shorter varint. -/
theorem maxIndexOverhead_probe_counterexample :
    scenarioConsts.DefaultMinSquareSize ≤ 64 ∧ 128 ≤ scenarioConsts.DefaultMaxSquareSize ∧
      64 = 2 ^ 6 ∧ 128 = 2 ^ 7 ∧
      uvarintLen (128 * 128 - 1) = 2 ∧ uvarintLen (128 * 128) = 3 ∧
      indexCost 1 [128 * 128] (128 * 128 - 1) = 2 ∧
      indexCost 1 [128 * 128] (128 * 128) = 3 ∧
      indexCost 1 (List.replicate 42 (128 * 128)) (128 * 128) = 4 ∧
      maxIndexOverhead 128 = some 5 ∧
      uvarintLen (64 * 64 - 1) = 2 ∧ uvarintLen (64 * 64) = 2 ∧
      indexCost 1 [64 * 64] (64 * 64 - 1) = 2 ∧
      indexCost 1 (List.replicate 63 (64 * 64)) (64 * 64) = 3 ∧
      indexCost 1 [] (64 * 64) = 4 ∧
      maxIndexOverhead 64 = some 4 ∧
      uvarintLen (16384 * 16384 - 1) = 4 ∧ uvarintLen (16384 * 16384) = 5 := by
  decide

/-! ## The calibrators do not panic -/

/-- Claim C16: under a correct configuration, for every square size `s` from
`DefaultMinSquareSize` to `DefaultMaxSquareSize` no calibrator panics: the
square `s * s` is not truncated by the conversion to `uint32`, its varint fits
the buffer of `MaxVarintLen32` bytes, `s * s - 1` does not wrap around, the
payload length fits an `int`, the envelope encoder accepts the three synthetic
inputs, and both calibrators return a positive number. -/
theorem calibrators_return (c : AppConsts) (hc : c.WellFormed) (s : Nat)
    (hmin : c.DefaultMinSquareSize ≤ s) (hmax : s ≤ c.DefaultMaxSquareSize) :
    s * s % 2 ^ 64 % 2 ^ 32 = s * s ∧
      PutUvarint MaxVarintLen32 (s * s % 2 ^ 64) = some (uvarintLen (s * s)) ∧
      (s * s % 2 ^ 64 + 2 ^ 64 - 1) % 2 ^ 64 % 2 ^ 32 = s * s - 1 ∧ 1 ≤ s * s ∧
      s * s * c.ContinuationCompactShareContentSize % 2 ^ 64 < 2 ^ 63 ∧
      (MarshalIndexWrapperLen (s * s * c.ContinuationCompactShareContentSize % 2 ^ 64)
        [s * s % 2 ^ 64 % 2 ^ 32]).isSome = true ∧
      (MarshalIndexWrapperLen 1 [s * s % 2 ^ 64 % 2 ^ 32]).isSome = true ∧
      (MarshalIndexWrapperLen 1 [s * s % 2 ^ 64 % 2 ^ 32,
        (s * s % 2 ^ 64 + 2 ^ 64 - 1) % 2 ^ 64 % 2 ^ 32]).isSome = true ∧
      ∃ w i, maxIndexWrapperOverhead c s = some w ∧ maxIndexOverhead s = some i ∧
        0 < w ∧ 0 < i := by
  have h0 : 1 ≤ s := le_trans hc.one_le_min hmin
  have hss : s * s ≤ c.DefaultMaxSquareSize * c.DefaultMaxSquareSize := Nat.mul_le_mul hmax hmax
  have h1 : s * s < 2 ^ 32 := lt_of_le_of_lt hss hc.index_fits
  have h2 : s * s * c.ContinuationCompactShareContentSize < 2 ^ 63 :=
    lt_of_le_of_lt (Nat.mul_le_mul_right _ hss) hc.payload_fits
  have hpos : 1 ≤ s * s := Nat.mul_le_mul h0 h0
  have e0 : s * s % 2 ^ 64 = s * s := Nat.mod_eq_of_lt (by omega)
  have e1 : s * s % 2 ^ 32 = s * s := Nat.mod_eq_of_lt h1
  have hv := uvarintLen_index_le h1
  refine ⟨by rw [e0, e1], ?_, by rw [e0]; omega, hpos, by omega, rfl, rfl, rfl,
    _, _, maxIndexWrapperOverhead_val c s h1 h2, maxIndexOverhead_val s h0 h1, ?_, ?_⟩
  · rw [e0]
    unfold PutUvarint MaxVarintLen32
    rw [if_pos hv]
  · unfold wrapperOverheadValue
    omega
  · have := uvarintLen_pos (s * s)
    unfold indexOverheadValue
    omega

/-- Witness of C16: the largest square size 128, with the values of the two
calibrators. -/
theorem calibrators_return_witness :
    scenarioConsts.WellFormed ∧
    maxIndexWrapperOverhead scenarioConsts 128 = some 16 ∧ maxIndexOverhead 128 = some 5 ∧
    128 * 128 % 2 ^ 64 % 2 ^ 32 = 128 * 128 ∧
      PutUvarint MaxVarintLen32 (128 * 128 % 2 ^ 64) = some (uvarintLen (128 * 128)) ∧
      (128 * 128 % 2 ^ 64 + 2 ^ 64 - 1) % 2 ^ 64 % 2 ^ 32 = 128 * 128 - 1 ∧ 1 ≤ 128 * 128 ∧
      128 * 128 * scenarioConsts.ContinuationCompactShareContentSize % 2 ^ 64 < 2 ^ 63 ∧
      (MarshalIndexWrapperLen
        (128 * 128 * scenarioConsts.ContinuationCompactShareContentSize % 2 ^ 64)
        [128 * 128 % 2 ^ 64 % 2 ^ 32]).isSome = true ∧
      (MarshalIndexWrapperLen 1 [128 * 128 % 2 ^ 64 % 2 ^ 32]).isSome = true ∧
      (MarshalIndexWrapperLen 1 [128 * 128 % 2 ^ 64 % 2 ^ 32,
        (128 * 128 % 2 ^ 64 + 2 ^ 64 - 1) % 2 ^ 64 % 2 ^ 32]).isSome = true ∧
      ∃ w i, maxIndexWrapperOverhead scenarioConsts 128 = some w ∧
        maxIndexOverhead 128 = some i ∧ 0 < w ∧ 0 < i :=
  ⟨scenarioConsts_wellFormed, by decide, by decide,
    calibrators_return scenarioConsts scenarioConsts_wellFormed 128 (by decide) (by decide)⟩

/-! ## Capacity of the square -/

/-- Claim C15: under a correct configuration, when `estimateSquareSize` returns
a square size below `DefaultMaxSquareSize`, the transaction shares plus the blob
shares are at most the square of the square size; on the general path (a total
above one) even `1.625 * total + 3` is at most that square; and the start of
the non-reserved namespaces, which is `estimateTxShares` at the maximum, is at
most that square.  So the bound can only fail for the square size
`DefaultMaxSquareSize`. -/
theorem capacity_when_not_clamped (c : AppConsts) (hc : c.WellFormed) (fma : Bool)
    (B : BlobTx → Nat) (txs : List parsedTx) (squareSize nonreserveStart : Nat)
    (h : estimateSquareSize c fma B txs = some (squareSize, nonreserveStart))
    (hlt : squareSize < c.DefaultMaxSquareSize) :
    estimateTxShares c c.DefaultMaxSquareSize txs = some nonreserveStart ∧
      nonreserveStart + blobSharesUsed B txs ≤ squareSize * squareSize ∧
      (1 < nonreserveStart + blobSharesUsed B txs →
        13 * (nonreserveStart + blobSharesUsed B txs) + 24 ≤ 8 * (squareSize * squareSize)) ∧
      nonreserveStart ≤ squareSize * squareSize := by
  obtain ⟨n, hn⟩ := estimateTxShares_max_eq_some c hc txs
  rw [estimateSquareSize_of_some c fma B txs n hn hc.max_lt] at h
  have hmin := hc.one_le_min
  by_cases ht : n + blobSharesUsed B txs ≤ 1
  · rw [if_pos ht] at h
    have h2 := Option.some.inj h
    have e1 : squareSize = c.DefaultMinSquareSize := (congrArg Prod.fst h2).symm
    have e2 : nonreserveStart = n := (congrArg Prod.snd h2).symm
    subst e2
    have hsq : 1 * 1 ≤ squareSize * squareSize := Nat.mul_le_mul (by omega) (by omega)
    exact ⟨hn, by omega, fun h1 => absurd ht (by omega), by omega⟩
  · rw [if_neg ht] at h
    have h2 := Option.some.inj h
    have e1 : squareSize = max c.DefaultMinSquareSize
        (min (RoundUpPowerOfTwo (minSide (n + blobSharesUsed B txs)))
          c.DefaultMaxSquareSize) := (congrArg Prod.fst h2).symm
    have e2 : nonreserveStart = n := (congrArg Prod.snd h2).symm
    subst e2
    have hr := RoundUpPowerOfTwo_ge (minSide (nonreserveStart + blobSharesUsed B txs))
    have hm : minSide (nonreserveStart + blobSharesUsed B txs) ≤ squareSize := by omega
    have hsq := Nat.mul_le_mul hm hm
    have hs := (minSide_spec (nonreserveStart + blobSharesUsed B txs)).1
    have hkey : 13 * (nonreserveStart + blobSharesUsed B txs) + 24
        ≤ 8 * (squareSize * squareSize) := by omega
    exact ⟨hn, by omega, fun _ => hkey, by omega⟩

/-- Witness of C15: two blob transactions get the square size four, which
holds their three shares. -/
theorem capacity_when_not_clamped_witness :
    scenarioConsts.WellFormed ∧
    estimateTxShares scenarioConsts scenarioConsts.DefaultMaxSquareSize
        [oneBlobTx 30 25, oneBlobTx 40 60] = some 1 ∧
      1 + blobSharesUsed (BlobTxSharesUsed 478 482) [oneBlobTx 30 25, oneBlobTx 40 60]
        ≤ 4 * 4 ∧
      (1 < 1 + blobSharesUsed (BlobTxSharesUsed 478 482) [oneBlobTx 30 25, oneBlobTx 40 60] →
        13 * (1 + blobSharesUsed (BlobTxSharesUsed 478 482)
            [oneBlobTx 30 25, oneBlobTx 40 60]) + 24 ≤ 8 * (4 * 4)) ∧
      1 ≤ 4 * 4 :=
  ⟨scenarioConsts_wellFormed,
    capacity_when_not_clamped scenarioConsts scenarioConsts_wellFormed false
      (BlobTxSharesUsed 478 482) [oneBlobTx 30 25, oneBlobTx 40 60] 4 1
      estimateSquareSize_sample (by decide)⟩

/-! ## Independence of the blob contents -/

/-- The second component of `estimateSquareSize` is `estimateTxShares` at the
maximum square size, on every path and also when a calibrator panics. -/
theorem estimateSquareSize_map_snd (c : AppConsts) (fma : Bool) (B : BlobTx → Nat)
    (txs : List parsedTx) :
    (estimateSquareSize c fma B txs).map Prod.snd
      = estimateTxShares c c.DefaultMaxSquareSize txs := by
  unfold estimateSquareSize
  cases estimateTxShares c c.DefaultMaxSquareSize txs with
  | none => rfl
  | some n =>
    simp only []
    split <;> rfl

/-- With a maximum below `2 ^ 21`, `estimateSquareSize` returns whenever
`estimateTxShares` does. -/
theorem estimateSquareSize_returns (c : AppConsts) (fma : Bool) (B : BlobTx → Nat)
    (txs : List parsedTx) (n : Nat)
    (hn : estimateTxShares c c.DefaultMaxSquareSize txs = some n)
    (hmax : c.DefaultMaxSquareSize < 2 ^ 21) :
    ∃ squareSize, estimateSquareSize c fma B txs = some (squareSize, n) := by
  rw [estimateSquareSize_of_some c fma B txs n hn hmax]
  split
  · exact ⟨_, rfl⟩
  · exact ⟨_, rfl⟩

theorem txBytes_sameUpToBlobContents (w i : Nat) (l1 l2 : List parsedTx)
    (h : sameUpToBlobContents l1 l2) :
    (l1.map (txBytes w i)).sum = (l2.map (txBytes w i)).sum := by
  unfold sameUpToBlobContents at h
  induction h with
  | nil => rfl
  | cons hab _ ih =>
    simp only [List.map_cons, List.sum_cons, ih]
    congr 1
    obtain ⟨h1, h2, h3⟩ := hab
    unfold txBytes txBytesStep
    rw [h1, h2, h3]

/-- Claim C17: for every square size, two transaction lists that differ only
in the contents of their blobs (same plain bytes, same wrapped transaction
bytes, same number of blobs in each transaction) get the same result of
`estimateTxShares`, and the same start of the non-reserved namespaces from
`estimateSquareSize`, whatever the blob shares are; under a correct
configuration both calls of `estimateSquareSize` return. -/
theorem estimate_blob_content_independent (c : AppConsts) (fma : Bool)
    (B1 B2 : BlobTx → Nat) (s : Nat) (l1 l2 : List parsedTx)
    (h : sameUpToBlobContents l1 l2) :
    estimateTxShares c s l1 = estimateTxShares c s l2 ∧
      (estimateSquareSize c fma B1 l1).map Prod.snd
        = (estimateSquareSize c fma B2 l2).map Prod.snd ∧
      (c.WellFormed → ∃ n s1 s2, estimateSquareSize c fma B1 l1 = some (s1, n) ∧
        estimateSquareSize c fma B2 l2 = some (s2, n)) := by
  have key : ∀ s, estimateTxShares c s l1 = estimateTxShares c s l2 := by
    intro s
    rw [estimateTxShares_eq_sum, estimateTxShares_eq_sum]
    simp only [fun w i => txBytes_sameUpToBlobContents w i l1 l2 h]
  refine ⟨key s, ?_, ?_⟩
  · rw [estimateSquareSize_map_snd, estimateSquareSize_map_snd, key]
  · intro hc
    obtain ⟨n, hn⟩ := estimateTxShares_max_eq_some c hc l1
    have hn2 : estimateTxShares c c.DefaultMaxSquareSize l2 = some n := by rw [← key]; exact hn
    obtain ⟨s1, h1⟩ := estimateSquareSize_returns c fma B1 l1 n hn hc.max_lt
    obtain ⟨s2, h2⟩ := estimateSquareSize_returns c fma B2 l2 n hn2 hc.max_lt
    exact ⟨n, s1, s2, h1, h2⟩

theorem sample_sameUpToBlobContents :
    sameUpToBlobContents
      [plainTx 10, blobTxOf [1, 2, 3] [{ NamespaceId := [1], Data := [7, 7], ShareVersion := 0 }]]
      [plainTx 10, blobTxOf [1, 2, 3]
        [{ NamespaceId := [2], Data := List.replicate 1000 9, ShareVersion := 1 }]] :=
  List.Forall₂.cons ⟨rfl, rfl, rfl⟩ (List.Forall₂.cons ⟨rfl, rfl, rfl⟩ List.Forall₂.nil)

/-- Witness of C17: a blob with another namespace, payload and share version. -/
theorem estimate_blob_content_independent_witness :
    estimateTxShares scenarioConsts 128
        [plainTx 10, blobTxOf [1, 2, 3]
          [{ NamespaceId := [1], Data := [7, 7], ShareVersion := 0 }]]
      = estimateTxShares scenarioConsts 128
        [plainTx 10, blobTxOf [1, 2, 3]
          [{ NamespaceId := [2], Data := List.replicate 1000 9, ShareVersion := 1 }]] ∧
      (estimateSquareSize scenarioConsts false (BlobTxSharesUsed 478 482)
          [plainTx 10, blobTxOf [1, 2, 3]
            [{ NamespaceId := [1], Data := [7, 7], ShareVersion := 0 }]]).map Prod.snd
        = (estimateSquareSize scenarioConsts false (BlobTxSharesUsed 478 482)
          [plainTx 10, blobTxOf [1, 2, 3]
            [{ NamespaceId := [2], Data := List.replicate 1000 9, ShareVersion := 1 }]]).map Prod.snd :=
  ⟨(estimate_blob_content_independent scenarioConsts false (BlobTxSharesUsed 478 482)
      (BlobTxSharesUsed 478 482) 128 _ _ sample_sameUpToBlobContents).1,
    (estimate_blob_content_independent scenarioConsts false (BlobTxSharesUsed 478 482)
      (BlobTxSharesUsed 478 482) 128 _ _ sample_sameUpToBlobContents).2.1⟩

/-! ## The kind of a transaction -/

/-- Whenever `maxIndexWrapperOverhead` returns, its result is positive. -/
theorem maxIndexWrapperOverhead_pos (c : AppConsts) (s w : Nat)
    (h : maxIndexWrapperOverhead c s = some w) : 0 < w := by
  unfold maxIndexWrapperOverhead MarshalIndexWrapperLen at h
  simp only [] at h
  split at h
  · exact absurd h (by simp)
  · have h2 := Option.some.inj h
    rw [IndexWrapperSize_eq] at h2
    simp only [List.length_cons, List.length_nil] at h2
    split_ifs at h2 <;> omega

theorem blobSharesUsed_insert (B : BlobTx → Nat) (l1 l2 : List parsedTx) (tx : parsedTx) :
    blobSharesUsed B (l1 ++ tx :: l2)
      = blobSharesUsed B l1 + blobSharesOf B tx + blobSharesUsed B l2 := by
  simp only [blobSharesUsed_eq_sum, List.map_append, List.sum_append, List.map_cons,
    List.sum_cons]
  omega

/-- Claim C18: for every parsed transaction `tx`, wherever it stands in the
list, its contribution to the byte count of `estimateTxShares` is `txBytes` and
its contribution to the blob shares of `estimateSquareSize` is `blobSharesOf`.
The byte count is the plain formula for all overheads exactly when `normalTx`
is not empty, and exactly then no blob shares are added, whatever the blob
share function.  A transaction with empty `normalTx` is costed as a blob
carrier: the wrapped bytes plus the wrapper overhead plus the index overhead
for each blob, delimited, and the blob shares of its `blobTx`; this is never
the cost `0 + DelimLen 0` of a plain transaction without bytes. -/
theorem kind_by_emptiness (tx : parsedTx) :
    (∀ (c : AppConsts) (s : Nat) (l1 l2 : List parsedTx),
        estimateTxShares c s (l1 ++ tx :: l2)
          = (maxIndexWrapperOverhead c s).bind (fun w =>
              (maxIndexOverhead s).bind (fun i =>
                some (CompactSharesNeeded c
                  ((l1.map (txBytes w i)).sum + txBytes w i tx
                    + (l2.map (txBytes w i)).sum))))) ∧
      (∀ (B : BlobTx → Nat) (l1 l2 : List parsedTx),
        blobSharesUsed B (l1 ++ tx :: l2)
          = blobSharesUsed B l1 + blobSharesOf B tx + blobSharesUsed B l2) ∧
      (tx.normalTx.length ≠ 0 ↔
        ∀ w i, txBytes w i tx = tx.normalTx.length + DelimLen tx.normalTx.length) ∧
      (tx.normalTx.length ≠ 0 ↔ ∀ B : BlobTx → Nat, blobSharesOf B tx = 0) ∧
      (tx.normalTx.length = 0 →
        (∀ w i, txBytes w i tx
          = tx.blobTx.Tx.length + w + i * tx.blobTx.Blobs.length
            + DelimLen (tx.blobTx.Tx.length + w + i * tx.blobTx.Blobs.length)) ∧
        (∀ B : BlobTx → Nat, blobSharesOf B tx = B tx.blobTx) ∧
        (∀ (c : AppConsts) (s w i : Nat), maxIndexWrapperOverhead c s = some w →
          txBytes w i tx ≠ 0 + DelimLen 0)) := by
  have hblob : tx.normalTx.length = 0 → ∀ w i, txBytes w i tx
      = tx.blobTx.Tx.length + w + i * tx.blobTx.Blobs.length
        + DelimLen (tx.blobTx.Tx.length + w + i * tx.blobTx.Blobs.length) := by
    intro h0 w i
    unfold txBytes txBytesStep
    rw [if_neg (by omega)]
    simp
  have hd0 : DelimLen 0 = 1 := uvarintLen_small (by norm_num)
  refine ⟨?_, fun B l1 l2 => blobSharesUsed_insert B l1 l2 tx, ?_, ?_, ?_⟩
  · intro c s l1 l2
    rw [estimateTxShares_eq_sum]
    simp only [List.map_append, List.sum_append, List.map_cons, List.sum_cons, Nat.add_assoc]
  · constructor
    · intro h w i
      unfold txBytes txBytesStep
      rw [if_pos h]
      simp
    · intro h h0
      have h1 := h 1 0
      rw [hblob h0 1 0, h0, hd0] at h1
      have := uvarintLen_pos (tx.blobTx.Tx.length + 1 + 0 * tx.blobTx.Blobs.length)
      unfold DelimLen at h1
      omega
  · constructor
    · intro h B
      unfold blobSharesOf
      rw [if_pos h]
    · intro h h0
      have h1 := h (fun _ => 1)
      unfold blobSharesOf at h1
      rw [if_neg (by omega)] at h1
      exact absurd h1 (by norm_num)
  · intro h0
    refine ⟨hblob h0, ?_, ?_⟩
    · intro B
      unfold blobSharesOf
      rw [if_neg (by omega)]
    · intro c s w i hw
      have hpos := maxIndexWrapperOverhead_pos c s w hw
      rw [hblob h0 w i, hd0]
      have := uvarintLen_pos (tx.blobTx.Tx.length + w + i * tx.blobTx.Blobs.length)
      unfold DelimLen
      omega

/-- Witness of C18: the transaction without any bytes is costed as a blob
carrier, with the seventeen bytes of the wrapper overhead and its delimiter
at the square size 128, not with the single byte of an empty plain
transaction. -/
theorem kind_by_emptiness_witness :
    txBytes 16 5 emptyTx = 17 ∧ txBytes 16 5 emptyTx ≠ 0 + DelimLen 0 ∧
      ∀ B : BlobTx → Nat, blobSharesOf B emptyTx = B emptyTx.blobTx :=
  ⟨by decide,
    ((kind_by_emptiness emptyTx).2.2.2.2 rfl).2.2 scenarioConsts 128 16 5 (by decide),
    ((kind_by_emptiness emptyTx).2.2.2.2 rfl).2.1⟩

end Celestia
